import Mathlib

/-!
Verification development for the MO2 Modular Dashboard engine
(`Data/mo2_helpers.py`, `Data/plugins.py`, `Data/plugingroups.py`,
`Data/files.py`).

Python strings are modelled as lists of characters (`PStr`), Python lists
as Lean lists, and Python dicts as insertion-ordered association lists
with update-or-append semantics.  All definitions are executable and are
direct translations of the corresponding Python functions.
-/

namespace MO2

/-- Python strings, modelled as lists of characters. -/
abbrev PStr := List Char

/-- Python `str.strip()` (no argument): drop leading and trailing whitespace. -/
def pstrip (s : PStr) : PStr :=
  ((s.dropWhile Char.isWhitespace).reverse.dropWhile Char.isWhitespace).reverse

/-- Python `str.lower()` (character-wise lowering). -/
def plower (s : PStr) : PStr := s.map Char.toLower

/-- Python `s.startswith(c)` for a one-character needle. -/
def startsWithChar (s : PStr) (c : Char) : Bool :=
  match s with
  | [] => false
  | a :: _ => a == c

/-- Python `ln.endswith("\n")`. -/
def endsWithNl (s : PStr) : Bool := s.getLast? == some '\n'

/-- `ln if ln.endswith("\n") else ln + "\n"` — newline normalization used by
`set_mod_enabled_in_lines` and `write_modlist`. -/
def addNl (s : PStr) : PStr := if endsWithNl s then s else s ++ ['\n']

/-- The "last index whose line matches" loop pattern of
`set_mod_enabled_in_lines` (`positions[-1]`) and
`_set_plugin_enabled_in_plugins_lines` (`last_idx`). -/
def lastIdxOf (P : PStr → Bool) (L : List PStr) : Option Nat :=
  ((List.range L.length).filter fun i => P (L.getD i [])).getLast?

/-- The "first index whose line matches" pattern of the
`next(i for i, n in enumerate(tgt) if ...)` anchor search in
`_insert_relative_once` (`none` models `StopIteration`). -/
def firstIdxOf (P : PStr → Bool) (L : List PStr) : Option Nat :=
  ((List.range L.length).filter fun i => P (L.getD i [])).head?

/-! ### `mo2_helpers.set_mod_enabled_in_lines` -/

/-- The removal test of the filtering loop in `set_mod_enabled_in_lines`:
`len(s) >= 2 and s[1:].strip() == mod_name` on the stripped line.  Note that the
Python loop applies this to *every* line, comments and blanks included. -/
def tailMatch (modName ln : PStr) : Bool :=
  let s := pstrip ln
  2 ≤ s.length && pstrip (s.drop 1) == modName

/-- The occurrence test of the position-collection loop in
`set_mod_enabled_in_lines`: blank and `#`-comment lines are skipped, then the
same payload test as `tailMatch`. -/
def occMatch (modName ln : PStr) : Bool :=
  let s := pstrip ln
  !s.isEmpty && !startsWithChar s '#' && tailMatch modName ln

/-- `mo2_helpers.set_mod_enabled_in_lines(lines, mod_name, enable)`.
`list.insert(i, x)` is translated by `List.insertIdx`; the index
`min keep_idx (len filtered)` is always within bounds, where the two agree. -/
def set_mod_enabled_in_lines (lines : List PStr) (modName : PStr) (enable : Bool) :
    List PStr :=
  let entry : PStr := (if enable then '+' else '-') :: modName
  let norm := lines.map addNl
  match lastIdxOf (occMatch modName) norm with
  | none => norm ++ [entry ++ ['\n']]
  | some keepIdx =>
    let filtered := norm.filter fun ln => !tailMatch modName ln
    filtered.insertIdx (min keepIdx filtered.length) (entry ++ ['\n'])

/-! ### `plugins._set_plugin_enabled_in_plugins_lines` -/

/-- The name payload of an activation-list line: strip, then drop one leading
`*` (and strip again), per `_set_plugin_enabled_in_plugins_lines`. -/
def plugLineName (ln : PStr) : PStr :=
  let s := pstrip ln
  if startsWithChar s '*' then pstrip (s.drop 1) else s

/-- Match test of the last-occurrence scan in
`_set_plugin_enabled_in_plugins_lines`: non-blank, non-comment, and the
lowered payload equals the lowered stripped target. -/
def plugMatch (tgtLow ln : PStr) : Bool :=
  let s := pstrip ln
  !s.isEmpty && !startsWithChar s '#' && plower (plugLineName ln) == tgtLow

/-- `plugins._set_plugin_enabled_in_plugins_lines(lines, plugin, enable)`:
returns the new lines and the `changed` flag. -/
def set_plugin_enabled_in_plugins_lines (lines : List PStr) (plug : PStr)
    (enable : Bool) : List PStr × Bool :=
  let tgt := pstrip plug
  let tgtLow := plower tgt
  let newLine : PStr := (if enable then '*' :: tgt else tgt) ++ ['\n']
  match lastIdxOf (plugMatch tgtLow) lines with
  | some i => (lines.set i newLine, newLine != lines.getD i [])
  | none => (lines ++ [newLine], true)

/-! ### `plugins._insert_relative_once` and its helpers -/

/-- `plugins._plugin_ext_rank(name)`: extension rank 0 (`.esm`), 1 (`.esp`),
2 (`.esl`), 3 (anything else), on the lowered name. -/
def plugin_ext_rank (name : PStr) : Nat :=
  let n := plower name
  if ".esm".data.isSuffixOf n then 0
  else if ".esp".data.isSuffixOf n then 1
  else if ".esl".data.isSuffixOf n then 2
  else 3

/-- The case-insensitive key `n.strip().lower()` used by the merger. -/
def ciKey (n : PStr) : PStr := plower (pstrip n)

/-- `plugins._partition_by_ext(order)[r]`: the Python loop appends each name to
the bucket of its rank, which is exactly a stable filter by rank. -/
def partition_by_ext (order : List PStr) (r : Nat) : List PStr :=
  order.filter fun n => plugin_ext_rank n == r

/-- `plugins._insert_relative_once(current_order, plugin, anchor, position)`.
`list.insert` is translated by `List.insertIdx`; the indices used (`idx` and
`idx + 1` with `idx` a valid index of the bucket) are always in bounds, where
the two functions agree. -/
def insert_relative_once (current : List PStr) (plugin : PStr)
    (anchor : Option PStr) (position : PStr) : List PStr :=
  let order := current.filter fun n => !(ciKey n == ciKey plugin)
  let pr := plugin_ext_rank plugin
  let tgt := partition_by_ext order pr
  let tgt2 :=
    match anchor with
    | some a =>
      if plugin_ext_rank a == pr then
        match firstIdxOf (fun n => ciKey n == ciKey a) tgt with
        | some idx =>
            tgt.insertIdx (if plower position == "before".data then idx else idx + 1) plugin
        | none => tgt ++ [plugin]
      else tgt ++ [plugin]
    | none => tgt ++ [plugin]
  let bucket := fun r => if r = pr then tgt2 else partition_by_ext order r
  bucket 0 ++ bucket 1 ++ bucket 2 ++ bucket 3

/-! ### `mo2_helpers.apply_mod_sets` (pure core) -/

/-- Python string comparison `a <= b`: lexicographic on code points. -/
def pstrLe : PStr → PStr → Bool
  | [], _ => true
  | _ :: _, [] => false
  | a :: as, b :: bs => if a == b then pstrLe as bs else decide (a < b)

/-- Python `text.splitlines()` for `"\n"`-separated text: split on `'\n'` and
drop the trailing empty piece produced by a final newline. -/
def splitlines (s : PStr) : List PStr :=
  if s.isEmpty then []
  else if endsWithNl s then (s.splitOn '\n').dropLast
  else s.splitOn '\n'

/-- `mo2_helpers.write_modlist`: the content written is the newline-normalized
lines, concatenated. -/
def write_modlist_content (lines : List PStr) : PStr := (lines.map addNl).flatten

/-- The mutation sequence of `mo2_helpers.apply_mod_sets`:
`final_enable = set(enable) − set(disable)`, then enables are applied first and
disables second, each group in Python-sorted order.  The sets are modelled as
duplicate-free lists; `sorted()` is modelled by insertion sort, which agrees
with any correct ascending sort on the distinct keys a set provides. -/
def apply_mod_sets_lines (lines : List PStr) (toEnable toDisable : List PStr) :
    List PStr :=
  let finalEnable := List.insertionSort (fun a b => pstrLe a b = true)
    (toEnable.filter fun m => !toDisable.contains m)
  let finalDisable := List.insertionSort (fun a b => pstrLe a b = true) toDisable
  let l1 := finalEnable.foldl (fun L m => set_mod_enabled_in_lines L m true) lines
  finalDisable.foldl (fun L m => set_mod_enabled_in_lines L m false) l1

/-- `mo2_helpers.apply_mod_sets` at the file level: read (`splitlines`), mutate,
and write back only when the mutated line list differs (`lines != original`)
from the raw line list read from disk.  Returns the resulting file content and
whether a write was performed. -/
def apply_mod_sets_run (content : PStr) (toEnable toDisable : List PStr) :
    PStr × Bool :=
  let lines0 := splitlines content
  let lines1 := apply_mod_sets_lines lines0 toEnable toDisable
  if lines1 == lines0 then (content, false)
  else (write_modlist_content lines1, true)

/-! ### `plugingroups` (pure core) -/

/-- Python dicts are modelled as insertion-ordered association lists;
`m[k] = v` updates an existing key in place or appends a new binding. -/
def dictSet (m : List (PStr × PStr)) (k v : PStr) : List (PStr × PStr) :=
  if m.any fun kv => kv.1 == k then
    m.map fun kv => if kv.1 == k then (k, v) else kv
  else m ++ [(k, v)]

/-- Python `m.get(k)` / `k in m`. -/
def dictGet? (m : List (PStr × PStr)) (k : PStr) : Option PStr :=
  (m.find? fun kv => kv.1 == k).map Prod.snd

def dictKeys (m : List (PStr × PStr)) : List PStr := m.map Prod.fst

/-- Python `==` on dicts: order-insensitive equality of key→value bindings. -/
def dictEq (a b : List (PStr × PStr)) : Bool :=
  (a.all fun kv => dictGet? b kv.1 == some kv.2) &&
  (b.all fun kv => dictGet? a kv.1 == some kv.2)

/-- `raw.rstrip("\n")`. -/
def rstripNl (s : PStr) : PStr := (s.reverse.dropWhile (· == '\n')).reverse

/-- Parse state of `plugingroups._read_plugingroups_file`: the mapping, the
header block, the free-form "other" lines, and the `comments_passed` flag. -/
structure PGParse where
  mapping : List (PStr × PStr)
  header : List PStr
  others : List PStr
  passed : Bool
deriving Repr, DecidableEq

/-- One iteration of the line loop of `_read_plugingroups_file`. -/
def readPGStep (st : PGParse) (raw : PStr) : PGParse :=
  let line := rstripNl raw
  let s := pstrip line
  if s.isEmpty || startsWithChar s '#' then
    if !st.passed then { st with header := st.header ++ [line] }
    else { st with others := st.others ++ [line] }
  else
    let st1 := { st with passed := true }
    if s.contains '|' then
      let left := s.takeWhile fun c => !(c == '|')
      let right := (s.dropWhile fun c => !(c == '|')).drop 1
      let plg := pstrip left
      let grp := pstrip right
      if !plg.isEmpty && !grp.isEmpty then
        { st1 with mapping := dictSet st1.mapping plg grp }
      else { st1 with others := st1.others ++ [line] }
    else { st1 with others := st1.others ++ [line] }

/-- `plugingroups._read_plugingroups_file` on the raw lines of an existing
file (the missing-file branches are not modelled: the claims quantify over
existing files). -/
def read_plugingroups_lines (lines : List PStr) : PGParse :=
  let st := lines.foldl readPGStep ⟨[], [], [], false⟩
  if st.header.isEmpty then
    { st with header := ["# This file is managed by StartupDashboard (plugin_groups)\n".data] }
  else st

/-- A rendered `plugin|group` data line. -/
def pgDataLine (k v : PStr) : PStr := k ++ '|' :: (v ++ ['\n'])

/-- `plugingroups._write_plugingroups_file`: header (newline-normalized), a
separator blank line when the header's last line is non-blank, the "other"
lines, then one data line per mapping key — load-order keys first, remaining
keys sorted case-insensitively, each key emitted once (`seen`). -/
def write_plugingroups_lines (ordered : List PStr)
    (mapping : List (PStr × PStr)) (header others : List PStr) : List PStr :=
  let out1 := header.map addNl
  let sep : List PStr :=
    match out1.getLast? with
    | some l => if (pstrip l).isEmpty then [] else [['\n']]
    | none => []
  let out3 := (out1 ++ sep) ++ others.map addNl
  let loop1 := ordered.foldl
    (fun (acc : List PStr × List PStr) p =>
      match dictGet? mapping p with
      | some v =>
          if acc.2.contains p then acc
          else (acc.1 ++ [pgDataLine p v], acc.2 ++ [p])
      | none => acc)
    (out3, [])
  let sortedKeys := List.insertionSort
    (fun a b => pstrLe (plower a) (plower b) = true) (dictKeys mapping)
  let loop2 := sortedKeys.foldl
    (fun (acc : List PStr × List PStr) p =>
      if acc.2.contains p then acc
      else
        match dictGet? mapping p with
        | some v => (acc.1 ++ [pgDataLine p v], acc.2 ++ [p])
        | none => acc)
    loop1
  loop2.1

/-- The merge step of `plugingroups.sync_plugingroups`: fold the rule
document's `plugin_groups` entries (stripped, blanks skipped) over the
existing mapping. -/
def pgMergeTarget (existing : List (PStr × PStr)) (groupMap : List (PStr × PStr)) :
    List (PStr × PStr) :=
  groupMap.foldl
    (fun m kv =>
      let plg := pstrip kv.1
      let grp := pstrip kv.2
      if !plg.isEmpty && !grp.isEmpty then dictSet m plg grp else m)
    existing

/-- `plugingroups.sync_plugingroups` at the file level: no-op when the group
map is empty; otherwise parse, merge, and rewrite the file only when the merged
mapping differs (Python dict `!=`) from the parsed one.  Returns the resulting
file lines and whether a write happened. -/
def sync_plugingroups_run (fileLines loadorder : List PStr)
    (groupMap : List (PStr × PStr)) : List PStr × Bool :=
  if groupMap.isEmpty then (fileLines, false)
  else
    let st := read_plugingroups_lines fileLines
    let target := pgMergeTarget st.mapping groupMap
    if dictEq target st.mapping then (fileLines, false)
    else (write_plugingroups_lines loadorder target st.header st.others, true)

/-! ### `files.atomic_write` and `mo2_helpers.write_modlist` (error model) -/

/-- Filesystem outcome oracle for one `atomic_write` call: whether writing the
temporary file, the atomic `os.replace`, and the cleanup `tmp.unlink()`
succeed. -/
structure FsOutcome where
  writeTmpOk : Bool
  replaceOk : Bool
  unlinkOk : Bool
deriving Repr, DecidableEq

/-- The filesystem state `atomic_write` touches: whether the temporary file
exists and the target file's content. -/
structure AtomicState where
  tmpExists : Bool
  target : Option PStr
deriving Repr, DecidableEq

/-- `files.atomic_write(path, text)`: write the temp file (failure propagates),
then `os.replace`; on replace failure, best-effort `tmp.unlink()` (its own
failure swallowed) and re-raise.  `Except.error` models an exception reaching
the caller. -/
def atomic_write (o : FsOutcome) (text : PStr) (s : AtomicState) :
    Except Unit Unit × AtomicState :=
  if !o.writeTmpOk then (Except.error (), s)
  else if o.replaceOk then (Except.ok (), { tmpExists := false, target := some text })
  else (Except.error (), { s with tmpExists := !o.unlinkOk })

/-- `mo2_helpers.write_modlist(path, lines)`: the whole write is wrapped in
`try/except Exception` which only logs — the caller always sees a normal
return, and on failure the target file keeps its previous content. -/
def write_modlist_fs (writeOk : Bool) (lines : List PStr) (cur : PStr) :
    Except Unit Unit × PStr :=
  if writeOk then (Except.ok (), write_modlist_content lines)
  else (Except.ok (), cur)

/-! ## String-model lemmas -/

lemma dropWhile_head_false {α} {p : α → Bool} {l : List α} {x : α} {xs : List α}
    (h : l.dropWhile p = x :: xs) : p x = false := by
  induction l with
  | nil => simp at h
  | cons a t ih =>
    rw [List.dropWhile_cons] at h
    by_cases hp : p a
    · exact ih (by simpa [hp] using h)
    · rcases (by simpa [hp] using h : a = x ∧ t = xs) with ⟨rfl, _⟩
      simpa using hp

lemma dropWhile_idem {α} (p : α → Bool) (l : List α) :
    (l.dropWhile p).dropWhile p = l.dropWhile p := by
  cases h : l.dropWhile p with
  | nil => simp
  | cons x xs => rw [List.dropWhile_cons, dropWhile_head_false h]; simp

/-- Trailing-whitespace strip; `pstrip s` is `rstripWS` of the
leading-whitespace strip, by definition. -/
def rstripWS (s : PStr) : PStr := (s.reverse.dropWhile Char.isWhitespace).reverse

lemma pstrip_def (s : PStr) : pstrip s = rstripWS (s.dropWhile Char.isWhitespace) := rfl

lemma rstripWS_idem (s : PStr) : rstripWS (rstripWS s) = rstripWS s := by
  simp [rstripWS, List.reverse_reverse, dropWhile_idem]

lemma rstripWS_append_ws {c : Char} (hc : c.isWhitespace = true) (s : PStr) :
    rstripWS (s ++ [c]) = rstripWS s := by
  simp [rstripWS, List.reverse_append, List.dropWhile_cons, hc]

lemma pstrip_append_ws {c : Char} (hc : c.isWhitespace = true) (s : PStr) :
    pstrip (s ++ [c]) = pstrip s := by
  rw [pstrip_def, pstrip_def, List.dropWhile_append]
  by_cases h : (s.dropWhile Char.isWhitespace).isEmpty
  · rw [List.isEmpty_iff] at h
    simp [h, List.isEmpty_nil, List.dropWhile_cons, hc, rstripWS]
  · simp only [h, if_false]
    exact rstripWS_append_ws hc _

lemma pstrip_append_nl (s : PStr) : pstrip (s ++ ['\n']) = pstrip s :=
  pstrip_append_ws (by decide) s

lemma rstripWS_pre (s : PStr) : rstripWS s <+: s := by
  have h := List.dropWhile_suffix (l := s.reverse) (p := Char.isWhitespace)
  have := List.reverse_prefix.mpr h
  simpa [rstripWS] using this

lemma pstrip_parts_eq {s : PStr} (hs : pstrip s = s) :
    s.dropWhile Char.isWhitespace = s ∧ rstripWS s = s := by
  have h1 : (s.dropWhile Char.isWhitespace).length ≤ s.length :=
    (List.dropWhile_suffix _).length_le
  have h2 : (rstripWS (s.dropWhile Char.isWhitespace)).length ≤
      (s.dropWhile Char.isWhitespace).length :=
    (rstripWS_pre _).length_le
  rw [pstrip_def] at hs
  have hlen : (s.dropWhile Char.isWhitespace).length = s.length := by
    have := congrArg List.length hs
    omega
  have hld : s.dropWhile Char.isWhitespace = s :=
    (List.dropWhile_suffix _).eq_of_length hlen
  refine ⟨hld, ?_⟩
  rw [hld] at hs
  exact hs

lemma pstrip_cons_of {c : Char} (hc : c.isWhitespace = false) {s : PStr}
    (hs : pstrip s = s) : pstrip (c :: s) = c :: s := by
  obtain ⟨hld, hrs⟩ := pstrip_parts_eq hs
  rw [pstrip_def, List.dropWhile_cons, hc]
  simp only [Bool.false_eq_true, if_false]
  cases hrev : s.reverse with
  | nil =>
    have : s = [] := by simpa using congrArg List.reverse hrev
    subst this
    simp [rstripWS, List.dropWhile_cons, hc]
  | cons y ys =>
    have hdw : s.reverse.dropWhile Char.isWhitespace = s.reverse := by
      have := congrArg List.reverse hrs
      simpa [rstripWS] using this
    have hempty : (s.reverse.dropWhile Char.isWhitespace).isEmpty = false := by
      rw [hdw, hrev]; rfl
    show rstripWS (c :: s) = c :: s
    unfold rstripWS
    rw [List.reverse_cons, List.dropWhile_append, hempty]
    simp [hdw]

lemma pstrip_idem (s : PStr) : pstrip (pstrip s) = pstrip s := by
  rw [pstrip_def s]
  set t := s.dropWhile Char.isWhitespace with ht
  have hhead : ∀ x xs, t = x :: xs → x.isWhitespace = false := by
    intro x xs hx
    exact dropWhile_head_false (l := s) (by rw [← ht, hx])
  rw [pstrip_def]
  have hld : (rstripWS t).dropWhile Char.isWhitespace = rstripWS t := by
    cases hu : rstripWS t with
    | nil => simp
    | cons x xs =>
      have hpre : rstripWS t <+: t := rstripWS_pre t
      rw [hu] at hpre
      obtain ⟨r, hr⟩ := hpre
      have hx : x.isWhitespace = false := hhead x (xs ++ r) (by rw [← hr]; simp)
      rw [List.dropWhile_cons, hx]
      simp
  rw [hld, rstripWS_idem]

lemma pstrip_cons_append_nl {c : Char} (hc : c.isWhitespace = false) {m : PStr}
    (hm : pstrip m = m) : pstrip ((c :: m) ++ ['\n']) = c :: m := by
  rw [pstrip_append_nl, pstrip_cons_of hc hm]

/-! ## `addNl` lemmas -/

lemma addNl_of_endsNl {s : PStr} (h : endsWithNl s = true) : addNl s = s := by
  simp [addNl, h]

lemma endsWithNl_addNl (s : PStr) : endsWithNl (addNl s) = true := by
  unfold addNl
  by_cases h : endsWithNl s
  · simp [h]
  · simp only [endsWithNl] at h ⊢
    simp only [h, if_false, Bool.false_eq_true]
    simp [List.getLast?_concat]

lemma map_addNl_id {L : List PStr} (h : ∀ ln ∈ L, endsWithNl ln = true) :
    L.map addNl = L := by
  rw [show L = L.map id by simp]
  rw [List.map_map]
  exact List.map_congr_left fun a ha => by simp [addNl_of_endsNl (h a ha)]

lemma pstrip_addNl (s : PStr) : pstrip (addNl s) = pstrip s := by
  unfold addNl
  by_cases h : endsWithNl s
  · simp [h]
  · simp only [h, if_false, Bool.false_eq_true]
    exact pstrip_append_nl s

/-! ## Index-scan lemmas -/

lemma range_filter_getLast?_none {n : Nat} {p : Nat → Bool}
    (h : ∀ j, j < n → p j = false) : ((List.range n).filter p).getLast? = none := by
  rw [List.getLast?_eq_none_iff, List.filter_eq_nil_iff]
  intro a ha
  rw [List.mem_range] at ha
  simp [h a ha]

lemma range_filter_getLast?_some {n : Nat} {p : Nat → Bool} {k : Nat}
    (h : ((List.range n).filter p).getLast? = some k) :
    k < n ∧ p k = true ∧ ∀ j, k < j → j < n → p j = false := by
  induction n with
  | zero => simp [List.range_zero] at h
  | succ m ih =>
    rw [List.range_succ, List.filter_append] at h
    by_cases hm : p m
    · rw [show List.filter p [m] = [m] by simp [hm], List.getLast?_concat] at h
      obtain rfl : m = k := by simpa using h
      exact ⟨Nat.lt_succ_self m, hm, fun j h1 h2 => by omega⟩
    · rw [show List.filter p [m] = [] by simp [hm], List.append_nil] at h
      obtain ⟨hk, hpk, hall⟩ := ih h
      refine ⟨by omega, hpk, fun j h1 h2 => ?_⟩
      by_cases hjm : j < m
      · exact hall j h1 hjm
      · have : j = m := by omega
        subst this
        simpa using hm

lemma range_filter_getLast?_concat {n : Nat} {p : Nat → Bool} (hp : p n = true) :
    ((List.range (n + 1)).filter p).getLast? = some n := by
  rw [List.range_succ, List.filter_append]
  rw [show List.filter p [n] = [n] by simp [hp]]
  exact List.getLast?_concat _

lemma range_filter_beq {n c : Nat} (hc : c < n) :
    ((List.range n).filter fun i => i == c) = [c] := by
  induction n with
  | zero => omega
  | succ m ih =>
    rw [List.range_succ, List.filter_append]
    by_cases hcm : c < m
    · rw [ih hcm, show List.filter (fun i => i == c) [m] = [] by simp; omega]
      simp
    · have : c = m := by omega
      subst this
      rw [show List.filter (fun i => i == c) [c] = [c] by simp]
      rw [show List.filter (fun i => i == c) (List.range c) = [] from ?_]
      · simp
      · rw [List.filter_eq_nil_iff]
        intro a ha
        rw [List.mem_range] at ha
        simp
        omega

lemma range_filter_head?_some {n : Nat} {p : Nat → Bool} {k : Nat}
    (h : ((List.range n).filter p).head? = some k) :
    k < n ∧ p k = true ∧ ∀ j, j < k → p j = false := by
  induction n with
  | zero => simp [List.range_zero] at h
  | succ m ih =>
    rw [List.range_succ, List.filter_append] at h
    cases hf : (List.range m).filter p with
    | nil =>
      rw [hf, List.nil_append] at h
      by_cases hm : p m
      · rw [show List.filter p [m] = [m] by simp [hm]] at h
        obtain rfl : m = k := by simpa using h
        refine ⟨Nat.lt_succ_self m, hm, fun j hj => ?_⟩
        have := List.filter_eq_nil_iff.mp hf j (by rw [List.mem_range]; omega)
        simpa using this
      · rw [show List.filter p [m] = [] by simp [hm]] at h
        simp at h
    | cons x xs =>
      rw [hf] at h
      simp only [List.cons_append, List.head?_cons] at h
      obtain rfl : x = k := by simpa using h
      have := ih (by rw [hf]; rfl)
      exact ⟨by omega, this.2.1, this.2.2⟩

lemma getD_eq_of_lt {L : List PStr} {i : Nat} (h : i < L.length) :
    L.getD i [] = L[i] := by
  rw [List.getD_eq_getElem?_getD, List.getElem?_eq_getElem h]
  rfl

lemma lastIdxOf_none_iff {P : PStr → Bool} {L : List PStr} :
    lastIdxOf P L = none ↔ ∀ ln ∈ L, P ln = false := by
  constructor
  · intro h ln hln
    obtain ⟨i, hi, rfl⟩ := List.getElem_of_mem hln
    unfold lastIdxOf at h
    rw [List.getLast?_eq_none_iff, List.filter_eq_nil_iff] at h
    have := h i (by rw [List.mem_range]; exact hi)
    rw [getD_eq_of_lt hi] at this
    simpa using this
  · intro h
    unfold lastIdxOf
    apply range_filter_getLast?_none
    intro j hj
    rw [getD_eq_of_lt hj]
    exact h _ (List.getElem_mem hj)

lemma lastIdxOf_some {P : PStr → Bool} {L : List PStr} {k : Nat}
    (h : lastIdxOf P L = some k) :
    k < L.length ∧ P (L.getD k []) = true ∧
      ∀ j, k < j → j < L.length → P (L.getD j []) = false := by
  unfold lastIdxOf at h
  exact range_filter_getLast?_some h

lemma lastIdxOf_concat_true {P : PStr → Bool} {L : List PStr} {v : PStr}
    (hv : P v = true) : lastIdxOf P (L ++ [v]) = some L.length := by
  unfold lastIdxOf
  rw [show (L ++ [v]).length = L.length + 1 by simp]
  apply range_filter_getLast?_concat
  rw [getD_eq_of_lt (by simp)]
  rw [List.getElem_append_right (by omega)]
  simpa using hv

lemma lastIdxOf_set_self {P : PStr → Bool} {L : List PStr} {k : Nat} {v : PStr}
    (h : lastIdxOf P L = some k) (hv : P v = true) :
    lastIdxOf P (L.set k v) = some k := by
  obtain ⟨hk, hPk, _⟩ := lastIdxOf_some h
  unfold lastIdxOf at h ⊢
  rw [List.length_set]
  rw [List.filter_congr (q := fun i => P (L.getD i [])) ?_]
  · exact h
  · intro i hi
    rw [List.mem_range] at hi
    by_cases hik : i = k
    · subst hik
      rw [getD_eq_of_lt (by simpa using hi), List.getElem_set, if_pos rfl, hv]
      exact hPk.symm
    · congr 1
      rw [getD_eq_of_lt (by simpa using hi), getD_eq_of_lt hi, List.getElem_set]
      simp [Ne.symm hik]

lemma lastIdxOf_sandwich {P : PStr → Bool} {A B : List PStr} {v : PStr}
    (hA : ∀ x ∈ A, P x = false) (hB : ∀ x ∈ B, P x = false) (hv : P v = true) :
    lastIdxOf P (A ++ v :: B) = some A.length := by
  unfold lastIdxOf
  have hlen : (A ++ v :: B).length = A.length + B.length + 1 := by
    simp; omega
  rw [List.filter_congr (q := fun i => i == A.length) ?_]
  · rw [hlen, range_filter_beq (by omega)]
    rfl
  · intro i hi
    rw [List.mem_range, hlen] at hi
    rw [getD_eq_of_lt (by rw [hlen]; omega)]
    by_cases h1 : i < A.length
    · rw [List.getElem_append_left h1]
      have := hA _ (List.getElem_mem h1)
      simp [this]
      omega
    · rw [List.getElem_append_right (by omega)]
      by_cases h2 : i = A.length
      · subst h2
        simp [hv]
      · have hne : i - A.length ≠ 0 := by omega
        have hlt : i - A.length - 1 < B.length := by omega
        rw [List.getElem_cons, dif_neg hne]
        simp [hB _ (List.getElem_mem hlt), h2]

lemma insertIdx_eq_take_cons_drop {α} (l : List α) (j : Nat) (x : α)
    (h : j ≤ l.length) : l.insertIdx j x = l.take j ++ x :: l.drop j := by
  induction l generalizing j with
  | nil =>
    have : j = 0 := by simpa using h
    subst this
    simp
  | cons a t ih =>
    cases j with
    | zero => simp
    | succ m =>
      rw [List.insertIdx_succ_cons]
      simp only [List.take_succ_cons, List.drop_succ_cons, List.cons_append,
        List.cons.injEq, true_and]
      exact ih m (by simpa using h)

lemma firstIdxOf_some {P : PStr → Bool} {L : List PStr} {k : Nat}
    (h : firstIdxOf P L = some k) :
    k < L.length ∧ P (L.getD k []) = true ∧ ∀ j, j < k → P (L.getD j []) = false := by
  unfold firstIdxOf at h
  exact range_filter_head?_some h

/-! ## Extension-rank ordering -/

/-- The load-order invariant from the spec: extension ranks are
non-decreasing along the list (all `.esm` before all `.esp` before all
`.esl` before everything else). -/
def rankSorted (l : List PStr) : Prop :=
  l.Pairwise fun a b => plugin_ext_rank a ≤ plugin_ext_rank b

instance (l : List PStr) : Decidable (rankSorted l) := by
  unfold rankSorted
  infer_instance

lemma rank_le_three (n : PStr) : plugin_ext_rank n ≤ 3 := by
  unfold plugin_ext_rank
  dsimp only
  split
  · omega
  · split
    · omega
    · split
      · omega
      · omega

/-- Entries of rank below `k`, in order. -/
def filterLt (k : Nat) (o : List PStr) : List PStr :=
  o.filter fun n => decide (plugin_ext_rank n < k)

/-- Entries of rank `k` or above, in order. -/
def filterGe (k : Nat) (o : List PStr) : List PStr :=
  o.filter fun n => decide (k ≤ plugin_ext_rank n)

/-- Entries of rank above `k`, in order. -/
def filterGt (k : Nat) (o : List PStr) : List PStr :=
  o.filter fun n => decide (k < plugin_ext_rank n)

lemma filterGt_eq_filterGe (k : Nat) (o : List PStr) :
    filterGt k o = filterGe (k+1) o :=
  List.filter_congr fun n _ => decide_eq_decide.mpr (by omega)

lemma filterGe_zero (o : List PStr) : filterGe 0 o = o := by
  unfold filterGe
  rw [List.filter_eq_self]
  intro a _
  simp

lemma filterGe_four (o : List PStr) : filterGe 4 o = [] := by
  unfold filterGe
  rw [List.filter_eq_nil_iff]
  intro a _
  have := rank_le_three a
  simp
  omega

lemma filterGe_step : ∀ {o : List PStr}, rankSorted o → ∀ k,
    filterGe k o = partition_by_ext o k ++ filterGe (k+1) o := by
  intro o hs
  induction hs with
  | nil => intro k; simp [filterGe, partition_by_ext]
  | @cons a t hall hrest ih =>
    intro k
    rcases Nat.lt_trichotomy (plugin_ext_rank a) k with hlt | heq | hgt
    · have h1 : (decide (k ≤ plugin_ext_rank a)) = false := by simp; omega
      have h2 : (plugin_ext_rank a == k) = false := by simp; omega
      have h3 : (decide (k + 1 ≤ plugin_ext_rank a)) = false := by simp; omega
      simp only [filterGe, partition_by_ext, List.filter_cons, h1, h2, h3] at ih ⊢
      simpa using ih k
    · have h1 : (decide (k ≤ plugin_ext_rank a)) = true := by simp; omega
      have h2 : (plugin_ext_rank a == k) = true := by simp; omega
      have h3 : (decide (k + 1 ≤ plugin_ext_rank a)) = false := by simp; omega
      simp only [filterGe, partition_by_ext, List.filter_cons, h1, h2, h3] at ih ⊢
      simpa using ih k
    · have h1 : (decide (k ≤ plugin_ext_rank a)) = true := by simp; omega
      have h2 : (plugin_ext_rank a == k) = false := by simp; omega
      have h3 : (decide (k + 1 ≤ plugin_ext_rank a)) = true := by simp; omega
      have hpart : partition_by_ext t k = [] := by
        unfold partition_by_ext
        rw [List.filter_eq_nil_iff]
        intro x hx
        have := hall x hx
        simp
        omega
      simp only [filterGe, partition_by_ext, List.filter_cons, h1, h2, h3] at ih hpart ⊢
      rw [hpart]
      have := ih k
      rw [hpart] at this
      simpa using this

lemma filter_lt_ge_split : ∀ {o : List PStr}, rankSorted o → ∀ k,
    filterLt k o ++ filterGe k o = o := by
  intro o hs
  induction hs with
  | nil => intro k; simp [filterLt, filterGe]
  | @cons a t hall hrest ih =>
    intro k
    by_cases hlt : plugin_ext_rank a < k
    · have h1 : (decide (plugin_ext_rank a < k)) = true := by simp [hlt]
      have h2 : (decide (k ≤ plugin_ext_rank a)) = false := by simp; omega
      simp only [filterLt, filterGe, List.filter_cons, h1, h2] at ih ⊢
      simpa using ih k
    · have hfl : List.filter (fun n => decide (plugin_ext_rank n < k)) t = [] := by
        rw [List.filter_eq_nil_iff]
        intro x hx
        have := hall x hx
        simp
        omega
      have hge : List.filter (fun n => decide (k ≤ plugin_ext_rank n)) t = t := by
        have h := ih k
        simp only [filterLt, filterGe] at h
        rw [hfl] at h
        simpa using h
      simp only [filterLt, filterGe]
      rw [List.filter_cons_of_neg (by simp; omega),
        List.filter_cons_of_pos (by simp; omega), hfl, hge, List.nil_append]

lemma sorted_three_split {o : List PStr} (hs : rankSorted o) (pr : Nat) :
    filterLt pr o ++ partition_by_ext o pr ++ filterGt pr o = o := by
  rw [filterGt_eq_filterGe, List.append_assoc, ← filterGe_step hs pr,
    filter_lt_ge_split hs pr]

/-- The reassembly step of `_insert_relative_once`: the four rank buckets of
`o` in order 0,1,2,3, with the bucket of rank `pr` replaced by `B`. -/
def reassemble (o : List PStr) (pr : Nat) (B : List PStr) : List PStr :=
  (if 0 = pr then B else partition_by_ext o 0) ++
  (if 1 = pr then B else partition_by_ext o 1) ++
  (if 2 = pr then B else partition_by_ext o 2) ++
  (if 3 = pr then B else partition_by_ext o 3)

lemma bucket_concat {o : List PStr} (hs : rankSorted o) {pr : Nat} (hpr : pr ≤ 3)
    (B : List PStr) :
    reassemble o pr B = filterLt pr o ++ B ++ filterGt pr o := by
  have h0 : o = partition_by_ext o 0 ++ filterGe 1 o := by
    rw [← filterGe_step hs 0, filterGe_zero]
  have h1 : filterGe 1 o = partition_by_ext o 1 ++ filterGe 2 o := filterGe_step hs 1
  have h2 : filterGe 2 o = partition_by_ext o 2 ++ filterGe 3 o := filterGe_step hs 2
  have h3 : filterGe 3 o = partition_by_ext o 3 := by
    rw [filterGe_step hs 3, filterGe_four, List.append_nil]
  have hsplit := filter_lt_ge_split hs
  unfold reassemble
  interval_cases pr
  · have hlt : filterLt 0 o = [] := by
      unfold filterLt
      rw [List.filter_eq_nil_iff]
      intro x _
      simp
    simp only [reduceIte]
    rw [hlt, List.nil_append, filterGt_eq_filterGe, h1, h2, h3]
    simp [List.append_assoc]
  · have hlt : filterLt 1 o = partition_by_ext o 0 := by
      apply @List.append_cancel_right _ _ (filterGe 1 o) _
      rw [hsplit 1, ← h0]
    simp only [reduceIte]
    rw [hlt, filterGt_eq_filterGe, h2, h3]
    simp [List.append_assoc]
  · have hlt : filterLt 2 o = partition_by_ext o 0 ++ partition_by_ext o 1 := by
      apply @List.append_cancel_right _ _ (filterGe 2 o) _
      rw [hsplit 2, List.append_assoc, ← h1, ← h0]
    simp only [reduceIte]
    rw [hlt, filterGt_eq_filterGe, h3]
    simp [List.append_assoc]
  · have hlt : filterLt 3 o =
        partition_by_ext o 0 ++ partition_by_ext o 1 ++ partition_by_ext o 2 := by
      apply @List.append_cancel_right _ _ (filterGe 3 o) _
      rw [hsplit 3, List.append_assoc, List.append_assoc, ← h2, ← h1, ← h0]
    have hgt : filterGt 3 o = [] := by
      rw [filterGt_eq_filterGe, filterGe_four]
    simp only [reduceIte]
    rw [hlt, hgt, List.append_nil]
    simp [List.append_assoc]

lemma insert_eq_reassemble_noanchor (order p pos) :
    insert_relative_once order p none pos =
      reassemble (order.filter fun n => !(ciKey n == ciKey p)) (plugin_ext_rank p)
        (partition_by_ext (order.filter fun n => !(ciKey n == ciKey p))
          (plugin_ext_rank p) ++ [p]) := rfl

lemma insert_eq_reassemble_cross {order : List PStr} {p a : PStr} (pos : PStr)
    (h : plugin_ext_rank a ≠ plugin_ext_rank p) :
    insert_relative_once order p (some a) pos =
      reassemble (order.filter fun n => !(ciKey n == ciKey p)) (plugin_ext_rank p)
        (partition_by_ext (order.filter fun n => !(ciKey n == ciKey p))
          (plugin_ext_rank p) ++ [p]) := by
  unfold insert_relative_once reassemble
  simp only [show (plugin_ext_rank a == plugin_ext_rank p) = false by simpa using h]
  rfl

lemma insert_eq_reassemble_found {order : List PStr} {p a : PStr} (pos : PStr)
    {idx : Nat} (hr : plugin_ext_rank a = plugin_ext_rank p)
    (hf : firstIdxOf (fun n => ciKey n == ciKey a)
        (partition_by_ext (order.filter fun n => !(ciKey n == ciKey p))
          (plugin_ext_rank p)) = some idx) :
    insert_relative_once order p (some a) pos =
      reassemble (order.filter fun n => !(ciKey n == ciKey p)) (plugin_ext_rank p)
        ((partition_by_ext (order.filter fun n => !(ciKey n == ciKey p))
            (plugin_ext_rank p)).insertIdx
          (if plower pos == "before".data then idx else idx + 1) p) := by
  unfold insert_relative_once reassemble
  simp only [show (plugin_ext_rank a == plugin_ext_rank p) = true by simpa using hr, hf,
    if_true]

lemma insert_eq_reassemble_notfound {order : List PStr} {p a : PStr} (pos : PStr)
    (hr : plugin_ext_rank a = plugin_ext_rank p)
    (hf : firstIdxOf (fun n => ciKey n == ciKey a)
        (partition_by_ext (order.filter fun n => !(ciKey n == ciKey p))
          (plugin_ext_rank p)) = none) :
    insert_relative_once order p (some a) pos =
      reassemble (order.filter fun n => !(ciKey n == ciKey p)) (plugin_ext_rank p)
        (partition_by_ext (order.filter fun n => !(ciKey n == ciKey p))
          (plugin_ext_rank p) ++ [p]) := by
  unfold insert_relative_once reassemble
  simp only [show (plugin_ext_rank a == plugin_ext_rank p) = true by simpa using hr, hf,
    if_true]

lemma filter_insertIdx_neg {α} {q : α → Bool} {x : α} (hx : q x = false) :
    ∀ (i : Nat) (l : List α), (l.insertIdx i x).filter q = l.filter q := by
  intro i l
  induction l generalizing i with
  | nil =>
    cases i with
    | zero => simp [hx]
    | succ m => simp
  | cons a t ih =>
    cases i with
    | zero =>
      rw [List.insertIdx_zero]
      simp [List.filter_cons, hx]
    | succ m =>
      rw [List.insertIdx_succ_cons]
      rw [List.filter_cons, List.filter_cons, ih]

lemma mem_partition {o : List PStr} {r : Nat} {x : PStr}
    (hx : x ∈ partition_by_ext o r) : plugin_ext_rank x = r := by
  have := (List.mem_filter.mp hx).2
  simpa using this

lemma filterLe_decomp {o : List PStr} (hs : rankSorted o) (pr : Nat) :
    o.filter (fun n => decide (plugin_ext_rank n ≤ pr)) =
      filterLt pr o ++ partition_by_ext o pr := by
  have h1 : o.filter (fun n => decide (plugin_ext_rank n ≤ pr)) = filterLt (pr+1) o :=
    List.filter_congr fun n _ => decide_eq_decide.mpr (by omega)
  rw [h1]
  apply @List.append_cancel_right _ _ (filterGe (pr+1) o) _
  rw [filter_lt_ge_split hs (pr+1), List.append_assoc, ← filterGe_step hs pr,
    filter_lt_ge_split hs pr]

/-- C1 (as stated) is false: on a load order that is not already
rank-partitioned, inserting a new plugin reorders the pre-existing entries
(`["B.esp", "A.esm"]` becomes `["A.esm", "B.esp", ...]`). -/
theorem C1_counterexample :
    ¬((insert_relative_once ["B.esp".data, "A.esm".data] "C.esl".data none
          "end".data).filter (fun n => !(ciKey n == ciKey "C.esl".data)) =
      ["B.esp".data, "A.esm".data].filter
        (fun n => !(ciKey n == ciKey "C.esl".data))) := by
  decide

/-- C1 (amended): on a rank-partitioned current order, inserting `p` never
changes the relative order of the pre-existing entries — removing every
case-insensitive occurrence of `p` from the output yields exactly the input
with its case-insensitive occurrences of `p` removed. -/
theorem C1_insert_preserves_existing (order : List PStr) (p : PStr)
    (anchor : Option PStr) (pos : PStr) (hs : rankSorted order) :
    (insert_relative_once order p anchor pos).filter
        (fun n => !(ciKey n == ciKey p)) =
      order.filter (fun n => !(ciKey n == ciKey p)) := by
  set q : PStr → Bool := fun n => !(ciKey n == ciKey p) with hq
  have hso : rankSorted (order.filter q) := List.Pairwise.filter q hs
  have hqp : q p = false := by simp [hq]
  have hall : ∀ x ∈ order.filter q, q x = true := fun x hx => (List.mem_filter.mp hx).2
  have key : ∀ B, B.filter q = partition_by_ext (order.filter q) (plugin_ext_rank p) →
      (reassemble (order.filter q) (plugin_ext_rank p) B).filter q = order.filter q := by
    intro B hB
    rw [bucket_concat hso (rank_le_three p), List.filter_append, List.filter_append, hB]
    have hfLt : (filterLt (plugin_ext_rank p) (order.filter q)).filter q =
        filterLt (plugin_ext_rank p) (order.filter q) := by
      rw [List.filter_eq_self]
      intro x hx
      exact hall x (List.mem_of_mem_filter hx)
    have hfGt : (filterGt (plugin_ext_rank p) (order.filter q)).filter q =
        filterGt (plugin_ext_rank p) (order.filter q) := by
      rw [List.filter_eq_self]
      intro x hx
      exact hall x (List.mem_of_mem_filter hx)
    rw [hfLt, hfGt]
    exact sorted_three_split hso (plugin_ext_rank p)
  have hpart : (partition_by_ext (order.filter q) (plugin_ext_rank p)).filter q =
      partition_by_ext (order.filter q) (plugin_ext_rank p) := by
    rw [List.filter_eq_self]
    intro x hx
    exact hall x (List.mem_of_mem_filter hx)
  have happ : (partition_by_ext (order.filter q) (plugin_ext_rank p) ++ [p]).filter q =
      partition_by_ext (order.filter q) (plugin_ext_rank p) := by
    rw [List.filter_append, hpart]
    simp [hqp]
  cases anchor with
  | none => rw [insert_eq_reassemble_noanchor]; exact key _ happ
  | some a =>
    by_cases hr : plugin_ext_rank a = plugin_ext_rank p
    · cases hf : firstIdxOf (fun n => ciKey n == ciKey a)
          (partition_by_ext (order.filter q) (plugin_ext_rank p)) with
      | none => rw [insert_eq_reassemble_notfound pos hr hf]; exact key _ happ
      | some idx =>
        rw [insert_eq_reassemble_found pos hr hf]
        refine key _ ?_
        rw [filter_insertIdx_neg hqp, hpart]
    · rw [insert_eq_reassemble_cross pos hr]; exact key _ happ

/-- C1 witness: a concrete rank-partitioned order on which the amended
invariant is checked. -/
theorem C1_witness :
    rankSorted ["A.esm".data, "B.esp".data] ∧
      (insert_relative_once ["A.esm".data, "B.esp".data] "X.esp".data
          (some "B.esp".data) "before".data).filter
          (fun n => !(ciKey n == ciKey "X.esp".data)) =
        ["A.esm".data, "B.esp".data].filter
          (fun n => !(ciKey n == ciKey "X.esp".data)) :=
  ⟨by decide, C1_insert_preserves_existing _ _ _ _ (by decide)⟩

lemma rankSorted_append {A C : List PStr} (hA : rankSorted A) (hC : rankSorted C)
    (h : ∀ a ∈ A, ∀ c ∈ C, plugin_ext_rank a ≤ plugin_ext_rank c) :
    rankSorted (A ++ C) :=
  List.pairwise_append.mpr ⟨hA, hC, h⟩

lemma rankSorted_of_const {l : List PStr} {r : Nat}
    (h : ∀ x ∈ l, plugin_ext_rank x = r) : rankSorted l := by
  induction l with
  | nil => exact List.Pairwise.nil
  | cons a t ih =>
    refine List.Pairwise.cons (fun b hb => ?_) (ih fun x hx => h x (by simp [hx]))
    rw [h a (by simp), h b (by simp [hb])]

lemma chunk_rank {o : List PStr} {pr : Nat} {B : List PStr}
    (hB : ∀ x ∈ B, plugin_ext_rank x = pr) (r : Nat) :
    ∀ x ∈ (if r = pr then B else partition_by_ext o r), plugin_ext_rank x = r := by
  intro x hx
  by_cases h : r = pr
  · rw [if_pos h] at hx
    rw [hB x hx, h]
  · rw [if_neg h] at hx
    exact mem_partition hx

lemma reassemble_sorted {o : List PStr} {pr : Nat} {B : List PStr}
    (hB : ∀ x ∈ B, plugin_ext_rank x = pr) :
    rankSorted (reassemble o pr B) := by
  have h0 := chunk_rank (o := o) hB 0
  have h1 := chunk_rank (o := o) hB 1
  have h2 := chunk_rank (o := o) hB 2
  have h3 := chunk_rank (o := o) hB 3
  unfold reassemble
  refine rankSorted_append (rankSorted_append (rankSorted_append
    (rankSorted_of_const h0) (rankSorted_of_const h1) ?_)
    (rankSorted_of_const h2) ?_) (rankSorted_of_const h3) ?_
  · intro x hx c hc
    rw [h0 x hx, h1 c hc]
    omega
  · intro x hx c hc
    rw [h2 c hc]
    rcases List.mem_append.mp hx with h | h
    · rw [h0 x h]; omega
    · rw [h1 x h]; omega
  · intro x hx c hc
    rw [h3 c hc]
    rcases List.mem_append.mp hx with h | h
    · rcases List.mem_append.mp h with h' | h'
      · rw [h0 x h']; omega
      · rw [h1 x h']; omega
    · rw [h2 x h]; omega

lemma insert_relative_once_sorted (order : List PStr) (p : PStr)
    (anchor : Option PStr) (pos : PStr) :
    rankSorted (insert_relative_once order p anchor pos) := by
  have happS : ∀ x ∈ partition_by_ext (order.filter fun n => !(ciKey n == ciKey p))
      (plugin_ext_rank p) ++ [p], plugin_ext_rank x = plugin_ext_rank p := by
    intro x hx
    rcases List.mem_append.mp hx with h | h
    · exact mem_partition h
    · simp at h
      subst h
      rfl
  cases anchor with
  | none =>
    rw [insert_eq_reassemble_noanchor]
    exact reassemble_sorted happS
  | some a =>
    by_cases hr : plugin_ext_rank a = plugin_ext_rank p
    · cases hf : firstIdxOf (fun n => ciKey n == ciKey a)
          (partition_by_ext (order.filter fun n => !(ciKey n == ciKey p))
            (plugin_ext_rank p)) with
      | none =>
        rw [insert_eq_reassemble_notfound pos hr hf]
        exact reassemble_sorted happS
      | some idx =>
        rw [insert_eq_reassemble_found pos hr hf]
        apply reassemble_sorted
        intro x hx
        have hidx := (firstIdxOf_some hf).1
        have hj : (if plower pos == "before".data then idx else idx + 1) ≤
            (partition_by_ext (order.filter fun n => !(ciKey n == ciKey p))
              (plugin_ext_rank p)).length := by
          split <;> omega
        rw [insertIdx_eq_take_cons_drop _ _ _ hj] at hx
        rcases List.mem_append.mp hx with h | h
        · exact mem_partition (List.take_subset _ _ h)
        · rcases List.mem_cons.mp h with rfl | h
          · rfl
          · exact mem_partition (List.drop_subset _ _ h)
    · rw [insert_eq_reassemble_cross pos hr]
      exact reassemble_sorted happS

/-- The incremental merger's insertion loop: new plugins are placed one by one
by `_insert_relative_once`, each with the anchor and position selected for
it. -/
def insertJobs (order : List PStr) (jobs : List (PStr × Option PStr × PStr)) :
    List PStr :=
  jobs.foldl (fun o j => insert_relative_once o j.1 j.2.1 j.2.2) order

/-- C3: after inserting any non-empty batch of new plugins one by one, the
resulting order is rank-partitioned — every rank-0 (`.esm`) entry precedes
every rank-1 (`.esp`) entry, which precedes every rank-2 (`.esl`) entry, which
precedes every rank-3 entry — whatever the insertion order, anchors and
starting order. -/
theorem C3_rank_partitioned (order : List PStr)
    (jobs : List (PStr × Option PStr × PStr)) (h : jobs ≠ []) :
    rankSorted (insertJobs order jobs) := by
  induction jobs generalizing order with
  | nil => exact absurd rfl h
  | cons j rest ih =>
    unfold insertJobs
    rw [List.foldl_cons]
    cases rest with
    | nil =>
      simpa [insertJobs] using insert_relative_once_sorted order j.1 j.2.1 j.2.2
    | cons j2 r2 =>
      exact ih (insert_relative_once order j.1 j.2.1 j.2.2) (by simp)

/-- C3 witness: a concrete unsorted starting order and a two-element batch. -/
theorem C3_witness :
    (([("C.esl".data, (none, "end".data)),
        ("Y.esm".data, (some "B.esp".data, "before".data))] :
      List (PStr × Option PStr × PStr)) ≠ []) ∧
      rankSorted (insertJobs ["B.esp".data, "A.esm".data]
        [("C.esl".data, (none, "end".data)),
          ("Y.esm".data, (some "B.esp".data, "before".data))]) :=
  ⟨by decide, C3_rank_partitioned _ _ (by decide)⟩

/-- C2: anchor semantics of the merger.  With a rank-partitioned current
order: (1) with no anchor, `p` is appended at the end of its own rank bucket
(all entries of rank ≤ rank p, then `p`, then all entries of higher rank);
(2) with an anchor of a different extension rank, cross-rank anchoring is not
honored and `p` is likewise appended at the end of its own bucket; (3) with an
anchor of the same rank whose first case-insensitive occurrence is found in
`p`'s bucket, `p` is spliced immediately before that occurrence for a
"before" hit and immediately after it for an "after" hit, all other entries
unchanged. -/
theorem C2_anchor_semantics (order : List PStr) (p a pos : PStr) (idx : Nat)
    (hs : rankSorted order) :
    (insert_relative_once order p none pos =
        (order.filter fun n => !(ciKey n == ciKey p)).filter
            (fun n => decide (plugin_ext_rank n ≤ plugin_ext_rank p)) ++
          p :: (order.filter fun n => !(ciKey n == ciKey p)).filter
            (fun n => decide (plugin_ext_rank p < plugin_ext_rank n))) ∧
    (plugin_ext_rank a ≠ plugin_ext_rank p →
      insert_relative_once order p (some a) pos =
        (order.filter fun n => !(ciKey n == ciKey p)).filter
            (fun n => decide (plugin_ext_rank n ≤ plugin_ext_rank p)) ++
          p :: (order.filter fun n => !(ciKey n == ciKey p)).filter
            (fun n => decide (plugin_ext_rank p < plugin_ext_rank n))) ∧
    (plugin_ext_rank a = plugin_ext_rank p →
      firstIdxOf (fun n => ciKey n == ciKey a)
          (partition_by_ext (order.filter fun n => !(ciKey n == ciKey p))
            (plugin_ext_rank p)) = some idx →
      ∃ u a2 v, ciKey a2 = ciKey a ∧
        order.filter (fun n => !(ciKey n == ciKey p)) = u ++ a2 :: v ∧
        (plower pos = "before".data →
          insert_relative_once order p (some a) pos = u ++ p :: a2 :: v) ∧
        (plower pos = "after".data →
          insert_relative_once order p (some a) pos = u ++ a2 :: p :: v)) := by
  have hso : rankSorted (order.filter fun n => !(ciKey n == ciKey p)) :=
    List.Pairwise.filter _ hs
  have hpr3 := rank_le_three p
  have happShape :
      reassemble (order.filter fun n => !(ciKey n == ciKey p)) (plugin_ext_rank p)
          (partition_by_ext (order.filter fun n => !(ciKey n == ciKey p))
            (plugin_ext_rank p) ++ [p]) =
        (order.filter fun n => !(ciKey n == ciKey p)).filter
            (fun n => decide (plugin_ext_rank n ≤ plugin_ext_rank p)) ++
          p :: (order.filter fun n => !(ciKey n == ciKey p)).filter
            (fun n => decide (plugin_ext_rank p < plugin_ext_rank n)) := by
    rw [bucket_concat hso hpr3, filterLe_decomp hso]
    show _ ++ _ ++ filterGt _ _ = _ ++ _ :: filterGt _ _
    simp [List.append_assoc]
  refine ⟨?_, ?_, ?_⟩
  · rw [insert_eq_reassemble_noanchor]
    exact happShape
  · intro hr
    rw [insert_eq_reassemble_cross pos hr]
    exact happShape
  · intro hr hf
    obtain ⟨hidx, hP, _⟩ := firstIdxOf_some hf
    have ha2 : ciKey ((partition_by_ext (order.filter fun n => !(ciKey n == ciKey p)) (plugin_ext_rank p)).getD idx []) =
        ciKey a := eq_of_beq hP
    have hdropc : (partition_by_ext (order.filter fun n => !(ciKey n == ciKey p)) (plugin_ext_rank p)).drop idx =
        (partition_by_ext (order.filter fun n => !(ciKey n == ciKey p)) (plugin_ext_rank p)).getD idx [] ::
          (partition_by_ext (order.filter fun n => !(ciKey n == ciKey p)) (plugin_ext_rank p)).drop (idx + 1) := by
      rw [getD_eq_of_lt hidx]
      exact List.drop_eq_getElem_cons hidx
    refine ⟨filterLt (plugin_ext_rank p) (order.filter fun n => !(ciKey n == ciKey p)) ++
        (partition_by_ext (order.filter fun n => !(ciKey n == ciKey p)) (plugin_ext_rank p)).take idx,
      (partition_by_ext (order.filter fun n => !(ciKey n == ciKey p)) (plugin_ext_rank p)).getD idx [],
      (partition_by_ext (order.filter fun n => !(ciKey n == ciKey p)) (plugin_ext_rank p)).drop (idx + 1) ++
        filterGt (plugin_ext_rank p) (order.filter fun n => !(ciKey n == ciKey p)),
      ha2, ?_, ?_, ?_⟩
    · calc order.filter (fun n => !(ciKey n == ciKey p))
          = filterLt (plugin_ext_rank p) (order.filter fun n => !(ciKey n == ciKey p)) ++
              partition_by_ext (order.filter fun n => !(ciKey n == ciKey p)) (plugin_ext_rank p) ++
              filterGt (plugin_ext_rank p) (order.filter fun n => !(ciKey n == ciKey p)) :=
            (sorted_three_split hso (plugin_ext_rank p)).symm
        _ = filterLt (plugin_ext_rank p) (order.filter fun n => !(ciKey n == ciKey p)) ++
              ((partition_by_ext (order.filter fun n => !(ciKey n == ciKey p)) (plugin_ext_rank p)).take idx ++
                (partition_by_ext (order.filter fun n => !(ciKey n == ciKey p)) (plugin_ext_rank p)).drop idx) ++
              filterGt (plugin_ext_rank p) (order.filter fun n => !(ciKey n == ciKey p)) := by
            rw [List.take_append_drop]
        _ = _ := by
            rw [hdropc]
            simp [List.append_assoc]
    · intro hpos
      rw [insert_eq_reassemble_found pos hr hf, bucket_concat hso hpr3]
      rw [show (if plower pos == "before".data then idx else idx + 1) = idx by
        simp [hpos]]
      rw [insertIdx_eq_take_cons_drop _ _ _ (by omega), hdropc]
      simp [List.append_assoc]
    · intro hpos
      have hif : (if plower pos == "before".data then idx else idx + 1) = idx + 1 := by
        rw [hpos]
        rfl
      rw [insert_eq_reassemble_found pos hr hf, bucket_concat hso hpr3, hif]
      rw [insertIdx_eq_take_cons_drop _ _ _ (by omega), List.take_succ,
        List.getElem?_eq_getElem hidx, ← getD_eq_of_lt hidx]
      simp [List.append_assoc]

/-- C2 witness: the spec's own worked example `[A.esp, B.esp, C.esp]` with
`X.esp` anchored before `B.esp`. -/
theorem C2_witness :
    rankSorted ["A.esp".data, "B.esp".data, "C.esp".data] ∧
      ((insert_relative_once ["A.esp".data, "B.esp".data, "C.esp".data]
            "X.esp".data none "end".data =
          (["A.esp".data, "B.esp".data, "C.esp".data].filter
              fun n => !(ciKey n == ciKey "X.esp".data)).filter
              (fun n => decide (plugin_ext_rank n ≤ plugin_ext_rank "X.esp".data)) ++
            "X.esp".data :: (["A.esp".data, "B.esp".data, "C.esp".data].filter
              fun n => !(ciKey n == ciKey "X.esp".data)).filter
              (fun n => decide (plugin_ext_rank "X.esp".data < plugin_ext_rank n))) ∧
        (plugin_ext_rank "B.esp".data ≠ plugin_ext_rank "X.esp".data →
          insert_relative_once ["A.esp".data, "B.esp".data, "C.esp".data]
              "X.esp".data (some "B.esp".data) "end".data =
            (["A.esp".data, "B.esp".data, "C.esp".data].filter
                fun n => !(ciKey n == ciKey "X.esp".data)).filter
                (fun n => decide (plugin_ext_rank n ≤ plugin_ext_rank "X.esp".data)) ++
              "X.esp".data :: (["A.esp".data, "B.esp".data, "C.esp".data].filter
                fun n => !(ciKey n == ciKey "X.esp".data)).filter
                (fun n => decide (plugin_ext_rank "X.esp".data < plugin_ext_rank n))) ∧
        (plugin_ext_rank "B.esp".data = plugin_ext_rank "X.esp".data →
          firstIdxOf (fun n => ciKey n == ciKey "B.esp".data)
              (partition_by_ext
                (["A.esp".data, "B.esp".data, "C.esp".data].filter
                  fun n => !(ciKey n == ciKey "X.esp".data))
                (plugin_ext_rank "X.esp".data)) = some 1 →
          ∃ u a2 v, ciKey a2 = ciKey "B.esp".data ∧
            ["A.esp".data, "B.esp".data, "C.esp".data].filter
                (fun n => !(ciKey n == ciKey "X.esp".data)) = u ++ a2 :: v ∧
            (plower "end".data = "before".data →
              insert_relative_once ["A.esp".data, "B.esp".data, "C.esp".data]
                "X.esp".data (some "B.esp".data) "end".data = u ++ "X.esp".data :: a2 :: v) ∧
            (plower "end".data = "after".data →
              insert_relative_once ["A.esp".data, "B.esp".data, "C.esp".data]
                "X.esp".data (some "B.esp".data) "end".data = u ++ a2 :: "X.esp".data :: v))) :=
  ⟨by decide, C2_anchor_semantics ["A.esp".data, "B.esp".data, "C.esp".data]
    "X.esp".data "B.esp".data "end".data 1 (by decide)⟩

/-- C10: the activation mutator only rewrites the line at the last
case-insensitive occurrence of the plugin (earlier duplicate occurrences stay
in place, unchanged — unlike the mod-list mutator, nothing is removed), every
other line is returned unchanged at its original position, and when no
occurrence exists a single new line is appended. -/
theorem C10_setEnabled_frame (lines : List PStr) (plug : PStr) (enable : Bool) :
    (∀ k, lastIdxOf (plugMatch (plower (pstrip plug))) lines = some k →
        (set_plugin_enabled_in_plugins_lines lines plug enable).1.length = lines.length ∧
        (set_plugin_enabled_in_plugins_lines lines plug enable).1.getD k [] =
          (if enable then '*' :: pstrip plug else pstrip plug) ++ ['\n'] ∧
        ∀ j, j ≠ k →
          (set_plugin_enabled_in_plugins_lines lines plug enable).1.getD j [] =
            lines.getD j []) ∧
    (lastIdxOf (plugMatch (plower (pstrip plug))) lines = none →
      (set_plugin_enabled_in_plugins_lines lines plug enable).1 =
        lines ++ [(if enable then '*' :: pstrip plug else pstrip plug) ++ ['\n']]) := by
  constructor
  · intro k hk
    have hkl := (lastIdxOf_some hk).1
    unfold set_plugin_enabled_in_plugins_lines
    simp only [hk]
    refine ⟨by simp, ?_, ?_⟩
    · rw [getD_eq_of_lt (by simpa using hkl), List.getElem_set, if_pos rfl]
    · intro j hjk
      rw [List.getD_eq_getElem?_getD, List.getD_eq_getElem?_getD, List.getElem?_set]
      simp [Ne.symm hjk]
  · intro hn
    unfold set_plugin_enabled_in_plugins_lines
    simp only [hn]

/-- C10 witness: a list with two case-insensitive occurrences of `A.esp`; the
last one is rewritten in place and the earlier duplicate survives untouched. -/
theorem C10_witness :
    lastIdxOf (plugMatch (plower (pstrip "A.esp".data)))
        ["*a.esp\n".data, "x\n".data, "A.esp\n".data] = some 2 ∧
      (set_plugin_enabled_in_plugins_lines
          ["*a.esp\n".data, "x\n".data, "A.esp\n".data] "A.esp".data true).1.length = 3 ∧
      (set_plugin_enabled_in_plugins_lines
          ["*a.esp\n".data, "x\n".data, "A.esp\n".data] "A.esp".data true).1.getD 2 [] =
        (if true then '*' :: pstrip "A.esp".data else pstrip "A.esp".data) ++ ['\n'] ∧
      (set_plugin_enabled_in_plugins_lines
          ["*a.esp\n".data, "x\n".data, "A.esp\n".data] "A.esp".data true).1.getD 0 [] =
        "*a.esp\n".data := by
  have h := (C10_setEnabled_frame ["*a.esp\n".data, "x\n".data, "A.esp\n".data]
    "A.esp".data true).1 2 (by decide)
  exact ⟨by decide, by simpa using h.1, h.2.1, h.2.2 0 (by decide)⟩

/-- C8 counterexample: `write_modlist` wraps its write in `try/except` that
only logs, so a failed write returns normally (`Except.ok`) to the immediate
caller and the file keeps its old content — the failure is not re-raised. -/
theorem C8_counterexample :
    (write_modlist_fs false ["+A".data] "+Old\n".data).1 = Except.ok () ∧
      (write_modlist_fs false ["+A".data] "+Old\n".data).2 = "+Old\n".data := by
  constructor <;> rfl

/-- C8 (amended): writes that go through `files.atomic_write` re-raise a
rename failure to the immediate caller after best-effort cleanup of the
temporary file (the temp file is gone whenever the unlink succeeds, and the
target is untouched); but the mod-list write `write_modlist` catches every
write failure and returns normally, only logging it. -/
theorem C8_error_handling (o : FsOutcome) (text : PStr) (s : AtomicState)
    (hw : o.writeTmpOk = true) (hr : o.replaceOk = false) :
    (atomic_write o text s).1 = Except.error () ∧
      (atomic_write o text s).2.tmpExists = !o.unlinkOk ∧
      (atomic_write o text s).2.target = s.target ∧
      ∀ (ok : Bool) (lines : List PStr) (cur : PStr),
        (write_modlist_fs ok lines cur).1 = Except.ok () := by
  unfold atomic_write
  rw [hw, hr]
  refine ⟨rfl, rfl, rfl, ?_⟩
  intro ok lines cur
  unfold write_modlist_fs
  split <;> rfl

/-- C8 witness: a concrete failing rename with successful cleanup. -/
theorem C8_witness :
    (FsOutcome.mk true false true).writeTmpOk = true ∧
      (FsOutcome.mk true false true).replaceOk = false ∧
      ((atomic_write (FsOutcome.mk true false true) "text".data
          (AtomicState.mk false (some "old".data))).1 = Except.error () ∧
        (atomic_write (FsOutcome.mk true false true) "text".data
            (AtomicState.mk false (some "old".data))).2.tmpExists =
          !(FsOutcome.mk true false true).unlinkOk ∧
        (atomic_write (FsOutcome.mk true false true) "text".data
            (AtomicState.mk false (some "old".data))).2.target =
          (AtomicState.mk false (some "old".data)).target ∧
        ∀ (ok : Bool) (lines : List PStr) (cur : PStr),
          (write_modlist_fs ok lines cur).1 = Except.ok ()) :=
  ⟨rfl, rfl, C8_error_handling (FsOutcome.mk true false true) "text".data
    (AtomicState.mk false (some "old".data)) rfl rfl⟩

/-- C7: re-run stability fails in the code.  `apply_mod_sets` compares the
newline-normalized mutated lines against the raw `splitlines()` result, which
differ whenever any mutation ran — so with the singleton enable set `{A}` and
the already-correct file content `"+A\n"`, the first run writes, and the
second run writes the very same bytes again: the second run performs a file
write, not zero. -/
theorem C7_rerun_writes_again :
    (apply_mod_sets_run "+A\n".data ["A".data] []).1 = "+A\n".data ∧
      (apply_mod_sets_run "+A\n".data ["A".data] []).2 = true ∧
      (apply_mod_sets_run (apply_mod_sets_run "+A\n".data ["A".data] []).1
          ["A".data] []).2 = true ∧
      (apply_mod_sets_run (apply_mod_sets_run "+A\n".data ["A".data] []).1
          ["A".data] []).1 = "+A\n".data := by
  decide

/-! ## Entry-line parsing lemmas for the two mutators -/

lemma endsWithNl_concat (s : PStr) : endsWithNl (s ++ ['\n']) = true := by
  simp [endsWithNl, List.getLast?_concat]

lemma tailMatch_entry {name : PStr} (hstrip : pstrip name = name) (hne : name ≠ [])
    {sign : Char} (hs : sign.isWhitespace = false) :
    tailMatch name ((sign :: name) ++ ['\n']) = true := by
  unfold tailMatch
  rw [pstrip_cons_append_nl hs hstrip]
  have h1 : ((sign :: name) : PStr).drop 1 = name := rfl
  have h2 : 1 ≤ name.length := List.length_pos.mpr hne
  simp [h1, hstrip]
  omega

lemma occMatch_entry {name : PStr} (hstrip : pstrip name = name) (hne : name ≠ [])
    {sign : Char} (hs : sign.isWhitespace = false) (hsh : sign ≠ '#') :
    occMatch name ((sign :: name) ++ ['\n']) = true := by
  unfold occMatch
  rw [pstrip_cons_append_nl hs hstrip]
  have htail := tailMatch_entry hstrip hne hs
  rw [List.cons_append] at htail
  simp [startsWithChar, hsh, htail]

lemma occ_imp_tail {name ln : PStr} (h : occMatch name ln = true) :
    tailMatch name ln = true := by
  unfold occMatch at h
  exact (Bool.and_eq_true_iff.mp h).2

/-- A comment line whose payload after one leading character equals the name:
removed by the filter pass of `set_mod_enabled_in_lines` although it is never
counted as an occurrence. -/
def commentMatch (modName ln : PStr) : Bool :=
  startsWithChar (pstrip ln) '#' && tailMatch modName ln

lemma tail_imp_occ_or_comment {name ln : PStr} (h : tailMatch name ln = true) :
    occMatch name ln = true ∨ commentMatch name ln = true := by
  have hlen : 2 ≤ (pstrip ln).length := by
    unfold tailMatch at h
    exact (by simpa using h : 2 ≤ (pstrip ln).length ∧ _).1
  by_cases hc : startsWithChar (pstrip ln) '#' = true
  · right
    unfold commentMatch
    rw [hc, h]
    rfl
  · left
    rw [Bool.not_eq_true] at hc
    have hni : (pstrip ln).isEmpty = false := by
      cases hp : pstrip ln with
      | nil => rw [hp] at hlen; simp at hlen
      | cons a t => rfl
    unfold occMatch
    simp [hni, hc, h]

lemma plugMatch_star_entry (tgt : PStr) (hstrip : pstrip tgt = tgt) :
    plugMatch (plower tgt) (('*' :: tgt) ++ ['\n']) = true := by
  unfold plugMatch plugLineName
  rw [pstrip_cons_append_nl (by decide) hstrip]
  have h1 : (('*' :: tgt) : PStr).drop 1 = tgt := rfl
  simp [startsWithChar, h1, hstrip]

lemma plugMatch_plain_entry (tgt : PStr) (hstrip : pstrip tgt = tgt) (hne : tgt ≠ [])
    (h1 : startsWithChar tgt '#' = false) (h2 : startsWithChar tgt '*' = false) :
    plugMatch (plower tgt) (tgt ++ ['\n']) = true := by
  unfold plugMatch plugLineName
  rw [pstrip_append_nl, hstrip]
  have hni : tgt.isEmpty = false := by
    cases tgt with
    | nil => exact absurd rfl hne
    | cons a t => rfl
  simp [hni, h1, h2]

lemma set_append_singleton_self {α} (L : List α) (v : α) :
    (L ++ [v]).set L.length v = L ++ [v] := by
  induction L with
  | nil => rfl
  | cons a t ih =>
    simp only [List.cons_append, List.length_cons, List.set_cons_succ, ih]

/-- Idempotence of the activation mutator, for enabling always and for
disabling whenever the stripped plugin name is non-blank and does not start
with `#` or `*` (the characters the line parser strips or treats as
comments). -/
lemma setEnabled_idem (lines : List PStr) (plug : PStr) (enable : Bool)
    (h : enable = true ∨ (pstrip plug ≠ [] ∧
      startsWithChar (pstrip plug) '#' = false ∧
      startsWithChar (pstrip plug) '*' = false)) :
    (set_plugin_enabled_in_plugins_lines
        (set_plugin_enabled_in_plugins_lines lines plug enable).1 plug enable).1 =
      (set_plugin_enabled_in_plugins_lines lines plug enable).1 := by
  have hP : plugMatch (plower (pstrip plug))
      ((if enable then '*' :: pstrip plug else pstrip plug) ++ ['\n']) = true := by
    rcases h with h | ⟨h1, h2, h3⟩
    · rw [h, if_pos rfl]
      exact plugMatch_star_entry (pstrip plug) (pstrip_idem plug)
    · cases hen : enable with
      | true =>
        rw [if_pos rfl]
        exact plugMatch_star_entry (pstrip plug) (pstrip_idem plug)
      | false =>
        rw [if_neg (by simp)]
        exact plugMatch_plain_entry (pstrip plug) (pstrip_idem plug) h1 h2 h3
  cases hk : lastIdxOf (plugMatch (plower (pstrip plug))) lines with
  | some k =>
    unfold set_plugin_enabled_in_plugins_lines
    simp only [hk, lastIdxOf_set_self hk hP, List.set_set]
  | none =>
    unfold set_plugin_enabled_in_plugins_lines
    simp only [hk, lastIdxOf_concat_true hP, set_append_singleton_self]

lemma tailMatch_addNl (name s : PStr) : tailMatch name (addNl s) = tailMatch name s := by
  unfold tailMatch
  rw [pstrip_addNl]

lemma occMatch_addNl (name s : PStr) : occMatch name (addNl s) = occMatch name s := by
  unfold occMatch
  rw [pstrip_addNl, tailMatch_addNl]

lemma commentMatch_addNl (name s : PStr) :
    commentMatch name (addNl s) = commentMatch name s := by
  unfold commentMatch
  rw [pstrip_addNl, tailMatch_addNl]

lemma setEntry_endsNl (lines : List PStr) (name : PStr) (enable : Bool) :
    ∀ ln ∈ set_mod_enabled_in_lines lines name enable, endsWithNl ln = true := by
  intro ln hln
  unfold set_mod_enabled_in_lines at hln
  cases hk : lastIdxOf (occMatch name) (lines.map addNl) with
  | none =>
    simp only [hk] at hln
    rcases List.mem_append.mp hln with h | h
    · obtain ⟨x, _, rfl⟩ := List.mem_map.mp h
      exact endsWithNl_addNl x
    · rw [List.mem_singleton.mp h]
      exact endsWithNl_concat _
  | some k =>
    simp only [hk] at hln
    rw [insertIdx_eq_take_cons_drop _ _ _ (min_le_right _ _)] at hln
    rcases List.mem_append.mp hln with h | h
    · have h2 := (List.mem_filter.mp (List.take_subset _ _ h)).1
      obtain ⟨x, _, rfl⟩ := List.mem_map.mp h2
      exact endsWithNl_addNl x
    · rcases List.mem_cons.mp h with rfl | h
      · exact endsWithNl_concat _
      · have h2 := (List.mem_filter.mp (List.drop_subset _ _ h)).1
        obtain ⟨x, _, rfl⟩ := List.mem_map.mp h2
        exact endsWithNl_addNl x

lemma setEntry_eval_some {L : List PStr} {name : PStr} {enable : Bool} {k2 : Nat}
    (hLn : ∀ ln ∈ L, endsWithNl ln = true)
    (hk : lastIdxOf (occMatch name) L = some k2) :
    set_mod_enabled_in_lines L name enable =
      (L.filter fun ln => !tailMatch name ln).insertIdx
        (min k2 (L.filter fun ln => !tailMatch name ln).length)
        (((if enable then '+' else '-') :: name) ++ ['\n']) := by
  unfold set_mod_enabled_in_lines
  rw [map_addNl_id hLn]
  simp only [hk]

lemma setEntry_eval_none {L : List PStr} {name : PStr} {enable : Bool}
    (hLn : ∀ ln ∈ L, endsWithNl ln = true)
    (hk : lastIdxOf (occMatch name) L = none) :
    set_mod_enabled_in_lines L name enable =
      L ++ [((if enable then '+' else '-') :: name) ++ ['\n']] := by
  unfold set_mod_enabled_in_lines
  rw [map_addNl_id hLn]
  simp only [hk]

/-- Idempotence of the mod-list mutator, provided the name is stripped and
non-empty and no input line is a comment whose one-character-stripped payload
equals the name (such comment lines are removed by a second application but
not by a first application that appended). -/
lemma setEntry_idem (lines : List PStr) (name : PStr) (enable : Bool)
    (hstrip : pstrip name = name) (hne : name ≠ [])
    (hcm : ∀ ln ∈ lines, commentMatch name ln = false) :
    set_mod_enabled_in_lines (set_mod_enabled_in_lines lines name enable) name
        enable =
      set_mod_enabled_in_lines lines name enable := by
  have hsign : (if enable then '+' else '-').isWhitespace = false := by
    cases enable <;> decide
  have hsh : (if enable then '+' else '-') ≠ '#' := by
    cases enable <;> decide
  have hoccE := occMatch_entry hstrip hne hsign hsh
  have htailE := tailMatch_entry hstrip hne hsign
  cases hk : lastIdxOf (occMatch name) (lines.map addNl) with
  | none =>
    have hres : set_mod_enabled_in_lines lines name enable =
        lines.map addNl ++ [((if enable then '+' else '-') :: name) ++ ['\n']] := by
      unfold set_mod_enabled_in_lines
      simp only [hk]
    have hAllOccF := lastIdxOf_none_iff.mp hk
    have hAllTailF : ∀ ln ∈ lines.map addNl, tailMatch name ln = false := by
      intro ln hln
      by_contra hb
      rw [Bool.not_eq_false] at hb
      rcases tail_imp_occ_or_comment hb with h | h
      · rw [hAllOccF ln hln] at h
        exact absurd h (by simp)
      · obtain ⟨x, hx, rfl⟩ := List.mem_map.mp hln
        rw [commentMatch_addNl, hcm x hx] at h
        exact absurd h (by simp)
    have hNl : ∀ ln ∈ lines.map addNl ++
        [((if enable then '+' else '-') :: name) ++ ['\n']], endsWithNl ln = true := by
      intro ln hln
      rcases List.mem_append.mp hln with h | h
      · obtain ⟨x, _, rfl⟩ := List.mem_map.mp h
        exact endsWithNl_addNl x
      · rw [List.mem_singleton.mp h]
        exact endsWithNl_concat _
    have hKlast : lastIdxOf (occMatch name) (lines.map addNl ++
        [((if enable then '+' else '-') :: name) ++ ['\n']]) =
        some (lines.map addNl).length := lastIdxOf_concat_true hoccE
    have hfilter : (lines.map addNl ++
        [((if enable then '+' else '-') :: name) ++ ['\n']]).filter
          (fun ln => !tailMatch name ln) = lines.map addNl := by
      rw [List.filter_append]
      rw [show List.filter (fun ln => !tailMatch name ln)
          [((if enable then '+' else '-') :: name) ++ ['\n']] = [] by
        rw [List.filter_cons, htailE]
        rfl]
      rw [List.append_nil, List.filter_eq_self]
      intro ln hln
      simp [hAllTailF ln hln]
    rw [hres, setEntry_eval_some hNl hKlast, hfilter, min_self,
      List.insertIdx_length_self]
  | some k =>
    have hres : set_mod_enabled_in_lines lines name enable =
        ((lines.map addNl).filter fun ln => !tailMatch name ln).insertIdx
          (min k ((lines.map addNl).filter fun ln => !tailMatch name ln).length)
          (((if enable then '+' else '-') :: name) ++ ['\n']) := by
      unfold set_mod_enabled_in_lines
      simp only [hk]
    have hFtail : ∀ x ∈ (lines.map addNl).filter fun ln => !tailMatch name ln,
        tailMatch name x = false := by
      intro x hx
      have := (List.mem_filter.mp hx).2
      simpa using this
    have hFocc : ∀ x ∈ (lines.map addNl).filter fun ln => !tailMatch name ln,
        occMatch name x = false := by
      intro x hx
      by_contra hb
      rw [Bool.not_eq_false] at hb
      have h1 := hFtail x hx
      have h2 := occ_imp_tail hb
      rw [h1] at h2
      exact absurd h2 (by simp)
    have hsplit : ((lines.map addNl).filter fun ln => !tailMatch name ln).insertIdx
        (min k ((lines.map addNl).filter fun ln => !tailMatch name ln).length)
        (((if enable then '+' else '-') :: name) ++ ['\n']) =
        ((lines.map addNl).filter fun ln => !tailMatch name ln).take
          (min k ((lines.map addNl).filter fun ln => !tailMatch name ln).length) ++
        (((if enable then '+' else '-') :: name) ++ ['\n']) ::
        ((lines.map addNl).filter fun ln => !tailMatch name ln).drop
          (min k ((lines.map addNl).filter fun ln => !tailMatch name ln).length) :=
      insertIdx_eq_take_cons_drop _ _ _ (min_le_right _ _)
    have hNl : ∀ ln ∈ ((lines.map addNl).filter fun ln => !tailMatch name ln).insertIdx
        (min k ((lines.map addNl).filter fun ln => !tailMatch name ln).length)
        (((if enable then '+' else '-') :: name) ++ ['\n']), endsWithNl ln = true := by
      intro ln hln
      rw [hsplit] at hln
      rcases List.mem_append.mp hln with h | h
      · have h2 := (List.mem_filter.mp (List.take_subset _ _ h)).1
        obtain ⟨x, _, rfl⟩ := List.mem_map.mp h2
        exact endsWithNl_addNl x
      · rcases List.mem_cons.mp h with rfl | h
        · exact endsWithNl_concat _
        · have h2 := (List.mem_filter.mp (List.drop_subset _ _ h)).1
          obtain ⟨x, _, rfl⟩ := List.mem_map.mp h2
          exact endsWithNl_addNl x
    have hKlast : lastIdxOf (occMatch name)
        (((lines.map addNl).filter fun ln => !tailMatch name ln).insertIdx
          (min k ((lines.map addNl).filter fun ln => !tailMatch name ln).length)
          (((if enable then '+' else '-') :: name) ++ ['\n'])) =
        some (min k ((lines.map addNl).filter fun ln => !tailMatch name ln).length) := by
      rw [hsplit]
      rw [lastIdxOf_sandwich
        (fun x hx => hFocc x (List.take_subset _ _ hx))
        (fun x hx => hFocc x (List.drop_subset _ _ hx)) hoccE]
      congr 1
      rw [List.length_take]
      exact min_eq_left (min_le_right _ _)
    have hfilter2 : (((lines.map addNl).filter fun ln => !tailMatch name ln).insertIdx
        (min k ((lines.map addNl).filter fun ln => !tailMatch name ln).length)
        (((if enable then '+' else '-') :: name) ++ ['\n'])).filter
          (fun ln => !tailMatch name ln) =
        (lines.map addNl).filter fun ln => !tailMatch name ln := by
      rw [hsplit, List.filter_append, List.filter_cons]
      rw [show (!tailMatch name (((if enable then '+' else '-') :: name) ++ ['\n'])) =
        false by rw [htailE]; rfl]
      simp only [Bool.false_eq_true, if_false]
      have htake : (((lines.map addNl).filter fun ln => !tailMatch name ln).take
          (min k ((lines.map addNl).filter fun ln =>
            !tailMatch name ln).length)).filter (fun ln => !tailMatch name ln) =
          ((lines.map addNl).filter fun ln => !tailMatch name ln).take
            (min k ((lines.map addNl).filter fun ln => !tailMatch name ln).length) :=
        List.filter_eq_self.mpr fun x hx => by
          simp [hFtail x (List.take_subset _ _ hx)]
      have hdrop : (((lines.map addNl).filter fun ln => !tailMatch name ln).drop
          (min k ((lines.map addNl).filter fun ln =>
            !tailMatch name ln).length)).filter (fun ln => !tailMatch name ln) =
          ((lines.map addNl).filter fun ln => !tailMatch name ln).drop
            (min k ((lines.map addNl).filter fun ln => !tailMatch name ln).length) :=
        List.filter_eq_self.mpr fun x hx => by
          simp [hFtail x (List.drop_subset _ _ hx)]
      rw [htake, hdrop, List.take_append_drop]
    rw [hres, setEntry_eval_some hNl hKlast, hfilter2,
      min_eq_left (min_le_right _ _)]


lemma filter_insertIdx_split {P : PStr → Bool} {F : List PStr} {e : PStr} {j : Nat}
    (hj : j ≤ F.length) (hF : ∀ x ∈ F, P x = false) (he : P e = true) :
    (F.insertIdx j e).filter P = [e] ∧
      ((F.insertIdx j e).filter fun x => !P x) = F := by
  rw [insertIdx_eq_take_cons_drop _ _ _ hj]
  have htakeN : (F.take j).filter P = [] :=
    List.filter_eq_nil_iff.mpr fun x hx => by simp [hF x (List.take_subset _ _ hx)]
  have hdropN : (F.drop j).filter P = [] :=
    List.filter_eq_nil_iff.mpr fun x hx => by simp [hF x (List.drop_subset _ _ hx)]
  have htakeS : ((F.take j).filter fun x => !P x) = F.take j :=
    List.filter_eq_self.mpr fun x hx => by simp [hF x (List.take_subset _ _ hx)]
  have hdropS : ((F.drop j).filter fun x => !P x) = F.drop j :=
    List.filter_eq_self.mpr fun x hx => by simp [hF x (List.drop_subset _ _ hx)]
  constructor
  · rw [List.filter_append, List.filter_cons, he, htakeN, hdropN]
    rfl
  · rw [List.filter_append, List.filter_cons]
    rw [show (!P e) = false by rw [he]; rfl]
    simp only [Bool.false_eq_true, if_false]
    rw [htakeS, hdropS, List.take_append_drop]

/-- C6 as stated is false: with input `["#A"]` and mod name `A`, the first
`setEntry` call appends and yields `["#A\n", "+A\n"]`, while the second call
also removes the comment line `"#A"` (whose one-character-stripped payload
equals the name), yielding `["+A\n"]` — applying the mutation twice differs
from applying it once. -/
theorem C6_counterexample :
    set_mod_enabled_in_lines (set_mod_enabled_in_lines ["#A".data] "A".data true)
        "A".data true ≠
      set_mod_enabled_in_lines ["#A".data] "A".data true := by
  decide

/-- C6 (amended): `setEntry` is idempotent whenever the mod name is stripped
and non-empty and no input line is a comment whose payload after one leading
character equals the name; `setEnabled` is idempotent whenever it enables, or
disables a plugin whose stripped name is non-blank and does not start with
`#` or `*`. -/
theorem C6_idempotence (lines plines : List PStr) (name plug : PStr)
    (enable : Bool) (hstrip : pstrip name = name) (hne : name ≠ [])
    (hcm : ∀ ln ∈ lines, commentMatch name ln = false)
    (hplug : enable = true ∨ (pstrip plug ≠ [] ∧
      startsWithChar (pstrip plug) '#' = false ∧
      startsWithChar (pstrip plug) '*' = false)) :
    set_mod_enabled_in_lines (set_mod_enabled_in_lines lines name enable) name
        enable =
      set_mod_enabled_in_lines lines name enable ∧
    (set_plugin_enabled_in_plugins_lines
        (set_plugin_enabled_in_plugins_lines plines plug enable).1 plug
        enable).1 =
      (set_plugin_enabled_in_plugins_lines plines plug enable).1 :=
  ⟨setEntry_idem lines name enable hstrip hne hcm,
    setEnabled_idem plines plug enable hplug⟩

/-- C6 witness: concrete idempotence check on a small mod list and
activation list. -/
theorem C6_witness :
    (pstrip "A".data = "A".data ∧ "A".data ≠ ([] : PStr) ∧
      (∀ ln ∈ (["+A".data, "#x".data] : List PStr),
        commentMatch "A".data ln = false)) ∧
      (set_mod_enabled_in_lines (set_mod_enabled_in_lines
          ["+A".data, "#x".data] "A".data true) "A".data true =
        set_mod_enabled_in_lines ["+A".data, "#x".data] "A".data true ∧
      (set_plugin_enabled_in_plugins_lines
          (set_plugin_enabled_in_plugins_lines ["B.esp\n".data] "B.esp".data
            true).1 "B.esp".data true).1 =
        (set_plugin_enabled_in_plugins_lines ["B.esp\n".data] "B.esp".data
          true).1) :=
  ⟨⟨by decide, by decide, by decide⟩,
    C6_idempotence ["+A".data, "#x".data] ["B.esp\n".data] "A".data "B.esp".data
      true (by decide) (by decide) (by decide) (Or.inl rfl)⟩

/-- Modelled from claim C4's words: an occurrence is a non-comment,
non-blank line whose payload after one leading *sign* character equals the
mod name; all occurrences but the last are removed, the last one is rewritten
in place with the new signed entry, every other line is kept in order; with
no occurrence, a signed entry is appended at the end. -/
def claimOcc (modName ln : PStr) : Bool :=
  let s := pstrip ln
  !s.isEmpty && !startsWithChar s '#' &&
    (startsWithChar s '+' || startsWithChar s '-') && pstrip (s.drop 1) == modName

/-- Modelled from claim C4's words (see `claimOcc`). -/
def setEntryClaimed (lines : List PStr) (modName : PStr) (enable : Bool) :
    List PStr :=
  let entry : PStr := (if enable then '+' else '-') :: modName
  let norm := lines.map addNl
  match lastIdxOf (claimOcc modName) norm with
  | none => norm ++ [entry ++ ['\n']]
  | some k =>
    (List.range norm.length).filterMap fun i =>
      if i = k then some (entry ++ ['\n'])
      else if claimOcc modName (norm.getD i []) then none
      else some (norm.getD i [])

/-- C4 as stated is false: with lines `["+M", "#M"]` and mod `M`, the comment
line `"#M"` is not an occurrence, yet the code also deletes it (its filter
pass ignores the comment test), so the result `["+M\n"]` differs from the
claimed `["+M\n", "#M\n"]`. -/
theorem C4_counterexample :
    set_mod_enabled_in_lines ["+M".data, "#M".data] "M".data true ≠
      setEntryClaimed ["+M".data, "#M".data] "M".data true := by
  decide

/-- C4 (amended): when the (stripped, non-empty) mod name occurs as the
payload of at least one non-comment, non-blank line, `setEntry` keeps exactly
the lines whose one-character-stripped payload does not equal the name —
comment lines with a matching payload are removed too — in their original
order, with exactly one matching line left: the fresh signed entry, inserted
at the index of the last non-comment occurrence clamped to the number of
surviving lines.  When no non-comment occurrence exists, a signed entry is
appended at the end (and matching comment lines then survive). -/
theorem C4_setEntry (lines : List PStr) (name : PStr) (enable : Bool)
    (hstrip : pstrip name = name) (hne : name ≠ []) :
    (lastIdxOf (occMatch name) (lines.map addNl) = none →
      set_mod_enabled_in_lines lines name enable =
        lines.map addNl ++ [((if enable then '+' else '-') :: name) ++ ['\n']]) ∧
    (∀ k, lastIdxOf (occMatch name) (lines.map addNl) = some k →
      (set_mod_enabled_in_lines lines name enable).filter (tailMatch name) =
        [((if enable then '+' else '-') :: name) ++ ['\n']] ∧
      ((set_mod_enabled_in_lines lines name enable).filter
          fun ln => !tailMatch name ln) =
        ((lines.map addNl).filter fun ln => !tailMatch name ln) ∧
      set_mod_enabled_in_lines lines name enable =
        ((lines.map addNl).filter fun ln => !tailMatch name ln).take
          (min k ((lines.map addNl).filter fun ln => !tailMatch name ln).length) ++
        (((if enable then '+' else '-') :: name) ++ ['\n']) ::
        ((lines.map addNl).filter fun ln => !tailMatch name ln).drop
          (min k ((lines.map addNl).filter fun ln => !tailMatch name ln).length)) := by
  have hsign : (if enable then '+' else '-').isWhitespace = false := by
    cases enable <;> decide
  have htailE := tailMatch_entry hstrip hne hsign
  constructor
  · intro hk
    unfold set_mod_enabled_in_lines
    simp only [hk]
  · intro k hk
    have hres : set_mod_enabled_in_lines lines name enable =
        ((lines.map addNl).filter fun ln => !tailMatch name ln).insertIdx
          (min k ((lines.map addNl).filter fun ln => !tailMatch name ln).length)
          (((if enable then '+' else '-') :: name) ++ ['\n']) := by
      unfold set_mod_enabled_in_lines
      simp only [hk]
    have hFtail : ∀ x ∈ (lines.map addNl).filter fun ln => !tailMatch name ln,
        tailMatch name x = false := by
      intro x hx
      have := (List.mem_filter.mp hx).2
      simpa using this
    have hsplit := filter_insertIdx_split (P := tailMatch name)
      (min_le_right k ((lines.map addNl).filter fun ln =>
        !tailMatch name ln).length)
      hFtail htailE (e := ((if enable then '+' else '-') :: name) ++ ['\n'])
    refine ⟨?_, ?_, ?_⟩
    · rw [hres]
      exact hsplit.1
    · rw [hres]
      exact hsplit.2
    · rw [hres]
      exact insertIdx_eq_take_cons_drop _ _ _ (min_le_right _ _)

/-- C4 witness: duplicate occurrences `["+A", "+A", "+B"]` of mod `A`; the
last occurrence index is 1, one fresh entry survives, and the non-matching
line `"+B"` is kept. -/
theorem C4_witness :
    (pstrip "A".data = "A".data ∧ "A".data ≠ ([] : PStr) ∧
      lastIdxOf (occMatch "A".data)
        ((["+A".data, "+A".data, "+B".data] : List PStr).map addNl) = some 1) ∧
      ((set_mod_enabled_in_lines ["+A".data, "+A".data, "+B".data] "A".data
          true).filter (tailMatch "A".data) =
        [((if true then '+' else '-') :: "A".data) ++ ['\n']] ∧
      ((set_mod_enabled_in_lines ["+A".data, "+A".data, "+B".data] "A".data
          true).filter fun ln => !tailMatch "A".data ln) =
        (((["+A".data, "+A".data, "+B".data] : List PStr).map addNl).filter
          fun ln => !tailMatch "A".data ln) ∧
      set_mod_enabled_in_lines ["+A".data, "+A".data, "+B".data] "A".data true =
        (((["+A".data, "+A".data, "+B".data] : List PStr).map addNl).filter
            fun ln => !tailMatch "A".data ln).take
          (min 1 ((((["+A".data, "+A".data, "+B".data] : List PStr).map
            addNl).filter fun ln => !tailMatch "A".data ln)).length) ++
        (((if true then '+' else '-') :: "A".data) ++ ['\n']) ::
        (((["+A".data, "+A".data, "+B".data] : List PStr).map addNl).filter
            fun ln => !tailMatch "A".data ln).drop
          (min 1 ((((["+A".data, "+A".data, "+B".data] : List PStr).map
            addNl).filter fun ln => !tailMatch "A".data ln)).length)) :=
  ⟨⟨by decide, by decide, by decide⟩,
    (C4_setEntry ["+A".data, "+A".data, "+B".data] "A".data true (by decide)
      (by decide)).2 1 (by decide)⟩

/-- The non-comment occurrence lines of a mod in a line list: these decide
whether the mod is enabled or disabled after the run. -/
def modOccLines (L : List PStr) (m : PStr) : List PStr := L.filter (occMatch m)

lemma setEntry_occ_self (L : List PStr) (m : PStr) (flag : Bool)
    (hstrip : pstrip m = m) (hne : m ≠ []) :
    modOccLines (set_mod_enabled_in_lines L m flag) m =
      [((if flag then '+' else '-') :: m) ++ ['\n']] := by
  have hsign : (if flag then '+' else '-').isWhitespace = false := by
    cases flag <;> decide
  have hsh : (if flag then '+' else '-') ≠ '#' := by
    cases flag <;> decide
  have hoccE := occMatch_entry hstrip hne hsign hsh
  cases hk : lastIdxOf (occMatch m) (L.map addNl) with
  | none =>
    have hres : set_mod_enabled_in_lines L m flag =
        L.map addNl ++ [((if flag then '+' else '-') :: m) ++ ['\n']] := by
      unfold set_mod_enabled_in_lines
      simp only [hk]
    rw [hres]
    unfold modOccLines
    rw [List.filter_append]
    rw [List.filter_eq_nil_iff.mpr fun x hx => by
      simp [lastIdxOf_none_iff.mp hk x hx]]
    rw [List.nil_append, List.filter_cons, hoccE]
    rfl
  | some k =>
    have hres : set_mod_enabled_in_lines L m flag =
        ((L.map addNl).filter fun ln => !tailMatch m ln).insertIdx
          (min k ((L.map addNl).filter fun ln => !tailMatch m ln).length)
          (((if flag then '+' else '-') :: m) ++ ['\n']) := by
      unfold set_mod_enabled_in_lines
      simp only [hk]
    have hFocc : ∀ x ∈ (L.map addNl).filter fun ln => !tailMatch m ln,
        occMatch m x = false := by
      intro x hx
      have h1 := (List.mem_filter.mp hx).2
      by_contra hb
      rw [Bool.not_eq_false] at hb
      rw [occ_imp_tail hb] at h1
      exact absurd h1 (by simp)
    rw [hres]
    unfold modOccLines
    exact (filter_insertIdx_split (min_le_right _ _) hFocc hoccE).1

lemma occ_tail_ne {m m2 ln : PStr} (hne : m2 ≠ m) (h : occMatch m ln = true) :
    tailMatch m2 ln = false := by
  have ht := occ_imp_tail h
  unfold tailMatch at ht ⊢
  dsimp only at ht ⊢
  rcases Bool.and_eq_true_iff.mp ht with ⟨h1, h2⟩
  have h3 : pstrip ((pstrip ln).drop 1) = m := by simpa using h2
  rw [h3]
  have : (m == m2) = false := by
    simp
    exact fun hcontra => hne hcontra.symm
  simp [this]

lemma setEntry_occ_other {L : List PStr} (hLn : ∀ ln ∈ L, endsWithNl ln = true)
    {m m2 : PStr} (hm2 : pstrip m2 = m2) (hne : m2 ≠ m) (flag : Bool) :
    modOccLines (set_mod_enabled_in_lines L m2 flag) m = modOccLines L m := by
  have hsign : (if flag then '+' else '-').isWhitespace = false := by
    cases flag <;> decide
  have hEocc : occMatch m (((if flag then '+' else '-') :: m2) ++ ['\n']) = false := by
    unfold occMatch tailMatch
    rw [pstrip_cons_append_nl hsign hm2]
    dsimp only
    have hd : (((if flag then '+' else '-') :: m2) : PStr).drop 1 = m2 := rfl
    rw [hd, hm2]
    have : (m2 == m) = false := by simp [hne]
    simp [this]
  have hocc_t2 : ∀ ln ∈ L, occMatch m ln = true → tailMatch m2 ln = false :=
    fun ln _ h => occ_tail_ne hne h
  cases hk : lastIdxOf (occMatch m2) (L.map addNl) with
  | none =>
    have hres : set_mod_enabled_in_lines L m2 flag =
        L.map addNl ++ [((if flag then '+' else '-') :: m2) ++ ['\n']] := by
      unfold set_mod_enabled_in_lines
      simp only [hk]
    rw [hres, map_addNl_id hLn]
    unfold modOccLines
    rw [List.filter_append, List.filter_cons, hEocc]
    simp
  | some k =>
    have hres : set_mod_enabled_in_lines L m2 flag =
        ((L.map addNl).filter fun ln => !tailMatch m2 ln).insertIdx
          (min k ((L.map addNl).filter fun ln => !tailMatch m2 ln).length)
          (((if flag then '+' else '-') :: m2) ++ ['\n']) := by
      unfold set_mod_enabled_in_lines
      simp only [hk]
    rw [hres, map_addNl_id hLn]
    unfold modOccLines
    rw [insertIdx_eq_take_cons_drop _ _ _ (min_le_right _ _)]
    rw [List.filter_append, List.filter_cons, hEocc]
    simp only [Bool.false_eq_true, if_false]
    rw [← List.filter_append, List.take_append_drop]
    rw [List.filter_filter]
    apply List.filter_congr
    intro x hx
    cases ho : occMatch m x with
    | false => simp
    | true =>
      have := hocc_t2 x hx ho
      simp [this]

lemma fold_setEntry_endsNl (ops : List PStr) (flag : Bool) (L : List PStr)
    (hL : ∀ ln ∈ L, endsWithNl ln = true) :
    ∀ ln ∈ ops.foldl (fun acc x => set_mod_enabled_in_lines acc x flag) L,
      endsWithNl ln = true := by
  induction ops generalizing L with
  | nil => exact hL
  | cons a t ih =>
    rw [List.foldl_cons]
    exact ih _ (setEntry_endsNl _ _ _)

lemma fold_occ_preserved (ops : List PStr) (flag : Bool) (L : List PStr)
    (m : PStr) (hL : ∀ ln ∈ L, endsWithNl ln = true)
    (hops : ∀ x ∈ ops, pstrip x = x ∧ x ≠ m) :
    modOccLines (ops.foldl (fun acc x => set_mod_enabled_in_lines acc x flag) L)
        m = modOccLines L m := by
  induction ops generalizing L with
  | nil => rfl
  | cons a t ih =>
    rw [List.foldl_cons]
    rw [ih _ (setEntry_endsNl _ _ _)
      (fun x hx => hops x (List.mem_cons_of_mem a hx))]
    exact setEntry_occ_other hL (hops a (List.mem_cons_self a t)).1
      (hops a (List.mem_cons_self a t)).2 flag

lemma nodup_mem_split {l : List PStr} {m : PStr} (hm : m ∈ l) (hn : l.Nodup) :
    ∃ l1 l2, l = l1 ++ m :: l2 ∧ m ∉ l2 := by
  obtain ⟨l1, l2, rfl⟩ := List.mem_iff_append.mp hm
  refine ⟨l1, l2, rfl, fun hml2 => ?_⟩
  have h2 := List.Nodup.of_append_right hn
  rw [List.nodup_cons] at h2
  exact h2.1 hml2

/-- C5 as stated is false: a mod named in both sets ends up disabled (the
line carries the `-` sign), not enabled, and the enables are applied first,
not the disables. -/
theorem C5_counterexample :
    apply_mod_sets_lines [] ["A".data] ["A".data] = [('-' :: "A".data) ++ ['\n']] ∧
      modOccLines (apply_mod_sets_lines [] ["A".data] ["A".data]) "A".data ≠
        [('+' :: "A".data) ++ ['\n']] := by
  decide

/-- C5 (amended): `applyModSets` computes `effectiveEnable = enableSet −
disableSet`, applies the enables first and the disables second, each in
name-sorted order; a mod named in the disable set — in particular a mod named
in both sets — ends up disabled (disable wins conflicts), and a mod named only
in the enable set ends up enabled. -/
theorem C5_apply_semantics (lines : List PStr) (en dis : List PStr) (m : PStr)
    (hstrip : pstrip m = m) (hne : m ≠ [])
    (henN : en.Nodup) (hdisN : dis.Nodup)
    (hstripE : ∀ x ∈ en, pstrip x = x) (hstripD : ∀ x ∈ dis, pstrip x = x) :
    (m ∈ dis →
      modOccLines (apply_mod_sets_lines lines en dis) m =
        [('-' :: m) ++ ['\n']]) ∧
    (m ∈ en → m ∉ dis →
      modOccLines (apply_mod_sets_lines lines en dis) m =
        [('+' :: m) ++ ['\n']]) := by
  unfold apply_mod_sets_lines
  dsimp only
  constructor
  · intro hmd
    have hmem : m ∈ List.insertionSort (fun a b => pstrLe a b = true) dis :=
      (List.perm_insertionSort _ dis).mem_iff.mpr hmd
    have hnod : (List.insertionSort (fun a b => pstrLe a b = true) dis).Nodup :=
      ((List.perm_insertionSort _ dis).nodup_iff).mpr hdisN
    obtain ⟨l1, l2, hsplit, hml2⟩ := nodup_mem_split hmem hnod
    have hsub : ∀ x ∈ l2, x ∈ dis := by
      intro x hx
      have h1 : x ∈ l1 ++ m :: l2 := by simp [hx]
      rw [← hsplit] at h1
      exact (List.perm_insertionSort _ dis).mem_iff.mp h1
    rw [hsplit, List.foldl_append, List.foldl_cons]
    rw [fold_occ_preserved l2 false _ m (setEntry_endsNl _ _ _)
      (fun x hx => ⟨hstripD x (hsub x hx), fun hxm => hml2 (hxm ▸ hx)⟩)]
    have h2 := setEntry_occ_self
      (List.foldl (fun L x => set_mod_enabled_in_lines L x false)
        (List.foldl (fun L x => set_mod_enabled_in_lines L x true) lines
          (List.insertionSort (fun a b => pstrLe a b = true)
            (en.filter fun x => !dis.contains x))) l1) m false hstrip hne
    simpa using h2
  · intro hme hmd
    have hc : dis.contains m = false := by
      simpa using hmd
    have hmf : m ∈ en.filter fun x => !dis.contains x :=
      List.mem_filter.mpr ⟨hme, by rw [hc]; rfl⟩
    have hmem : m ∈ List.insertionSort (fun a b => pstrLe a b = true)
        (en.filter fun x => !dis.contains x) :=
      (List.perm_insertionSort _ _).mem_iff.mpr hmf
    have hnod : (List.insertionSort (fun a b => pstrLe a b = true)
        (en.filter fun x => !dis.contains x)).Nodup :=
      ((List.perm_insertionSort _ _).nodup_iff).mpr (henN.filter _)
    obtain ⟨l1, l2, hsplit, hml2⟩ := nodup_mem_split hmem hnod
    have hsub : ∀ x ∈ l2, x ∈ en := by
      intro x hx
      have h1 : x ∈ l1 ++ m :: l2 := by simp [hx]
      rw [← hsplit] at h1
      exact (List.mem_filter.mp
        ((List.perm_insertionSort _ _).mem_iff.mp h1)).1
    rw [hsplit, List.foldl_append, List.foldl_cons]
    have hstate : modOccLines
        (List.foldl (fun L x => set_mod_enabled_in_lines L x true)
          (set_mod_enabled_in_lines
            (List.foldl (fun L x => set_mod_enabled_in_lines L x true) lines l1)
            m true) l2) m = [('+' :: m) ++ ['\n']] := by
      rw [fold_occ_preserved l2 true _ m (setEntry_endsNl _ _ _)
        (fun x hx => ⟨hstripE x (hsub x hx), fun hxm => hml2 (hxm ▸ hx)⟩)]
      simpa using setEntry_occ_self _ m true hstrip hne
    rw [fold_occ_preserved (List.insertionSort (fun a b => pstrLe a b = true)
        dis) false _ m
      (fold_setEntry_endsNl l2 true _ (setEntry_endsNl _ _ _))
      (fun x hx => ⟨hstripD x ((List.perm_insertionSort _ dis).mem_iff.mp hx),
        fun hxm => hmd (hxm ▸ (List.perm_insertionSort _ dis).mem_iff.mp hx)⟩)]
    exact hstate

/-- C5 witness: the conflict case — mod `A` named in both sets ends up
disabled. -/
theorem C5_witness :
    (pstrip "A".data = "A".data ∧ "A".data ≠ ([] : PStr) ∧
      (["A".data] : List PStr).Nodup ∧ "A".data ∈ (["A".data] : List PStr)) ∧
      modOccLines (apply_mod_sets_lines [] ["A".data] ["A".data]) "A".data =
        [('-' :: "A".data) ++ ['\n']] :=
  ⟨⟨by decide, by decide, by decide, by decide⟩,
    (C5_apply_semantics [] ["A".data] ["A".data] "A".data (by decide) (by decide)
      (by decide) (by decide) (fun x hx => by
        rw [List.mem_singleton.mp hx]; decide) (fun x hx => by
        rw [List.mem_singleton.mp hx]; decide)).1 (by decide)⟩

/-! ## Dictionary lemmas for the group synchronizer -/

lemma find?_map_dictSet_other {k k2 : PStr} (v : PStr) (h : k2 ≠ k) :
    ∀ (m : List (PStr × PStr)),
      List.find? (fun kv => kv.1 == k2)
          (m.map fun kv => if kv.1 == k then (k, v) else kv) =
        List.find? (fun kv => kv.1 == k2) m := by
  intro m
  induction m with
  | nil => rfl
  | cons kv0 t ih =>
    rw [List.map_cons, List.find?_cons, List.find?_cons]
    by_cases hk0 : (kv0.1 == k) = true
    · rw [if_pos hk0]
      have h1 : ((k, v).1 == k2) = false := by
        simp
        exact fun hc => h hc.symm
      have h2 : (kv0.1 == k2) = false := by
        rw [eq_of_beq hk0]
        simp
        exact fun hc => h hc.symm
      rw [h1, h2]
      simpa using ih
    · rw [if_neg hk0]
      by_cases h2 : (kv0.1 == k2) = true
      · rw [h2]
      · rw [Bool.not_eq_true] at h2
        rw [h2]
        simpa using ih

lemma find?_map_dictSet_self {k : PStr} (v : PStr) :
    ∀ (m : List (PStr × PStr)), (m.any fun kv => kv.1 == k) = true →
      List.find? (fun kv => kv.1 == k)
          (m.map fun kv => if kv.1 == k then (k, v) else kv) = some (k, v) := by
  intro m
  induction m with
  | nil => intro h; simp at h
  | cons kv0 t ih =>
    intro h
    rw [List.map_cons, List.find?_cons]
    by_cases hk0 : (kv0.1 == k) = true
    · rw [if_pos hk0]
      rw [show ((k, v).1 == k) = true by simp]
    · rw [if_neg hk0]
      rw [Bool.not_eq_true] at hk0
      rw [hk0]
      apply ih
      rw [List.any_cons] at h
      rcases Bool.or_eq_true_iff.mp h with h1 | h1
      · rw [hk0] at h1
        exact absurd h1 (by simp)
      · exact h1

lemma dictGet?_dictSet_self (m : List (PStr × PStr)) (k v : PStr) :
    dictGet? (dictSet m k v) k = some v := by
  unfold dictSet dictGet?
  by_cases ha : (m.any fun kv => kv.1 == k) = true
  · rw [if_pos ha, find?_map_dictSet_self v m ha]
    rfl
  · rw [if_neg ha]
    have hnone : List.find? (fun kv => kv.1 == k) m = none := by
      rw [List.find?_eq_none]
      intro kv hkv hc
      exact ha (List.any_eq_true.mpr ⟨kv, hkv, hc⟩)
    rw [List.find?_append, hnone]
    simp

lemma dictGet?_dictSet_other (m : List (PStr × PStr)) {k k2 : PStr} (v : PStr)
    (h : k2 ≠ k) : dictGet? (dictSet m k v) k2 = dictGet? m k2 := by
  unfold dictSet dictGet?
  by_cases ha : (m.any fun kv => kv.1 == k) = true
  · rw [if_pos ha, find?_map_dictSet_other v h m]
  · rw [if_neg ha, List.find?_append]
    have h1 : List.find? (fun kv => kv.1 == k2) [(k, v)] = none := by
      rw [List.find?_eq_none]
      intro kv hkv
      rw [List.mem_singleton.mp hkv]
      simp
      exact fun hc => h hc.symm
    rw [h1]
    cases List.find? (fun kv => kv.1 == k2) m <;> rfl

lemma pgMerge_lookup_preserved (gm : List (PStr × PStr)) :
    ∀ (m : List (PStr × PStr)) (k v : PStr), dictGet? m k = some v →
      ∃ v2, dictGet? (pgMergeTarget m gm) k = some v2 ∧
        ((∀ kv ∈ gm, pstrip kv.1 ≠ k) → v2 = v) := by
  induction gm with
  | nil => exact fun m k v h => ⟨v, h, fun _ => rfl⟩
  | cons a t ih =>
    intro m k v h
    unfold pgMergeTarget at ih ⊢
    rw [List.foldl_cons]
    by_cases hcl : (!(pstrip a.1).isEmpty && !(pstrip a.2).isEmpty) = true
    · rw [if_pos hcl]
      by_cases hkk : pstrip a.1 = k
      · obtain ⟨v2, hv2, _⟩ := ih (dictSet m (pstrip a.1) (pstrip a.2)) k
          (pstrip a.2) (by rw [hkk] at *; exact dictGet?_dictSet_self m k _)
        exact ⟨v2, hv2, fun hall =>
          absurd hkk (hall a (List.mem_cons_self a t))⟩
      · obtain ⟨v2, hv2, hsame⟩ := ih (dictSet m (pstrip a.1) (pstrip a.2)) k v
          (by rw [dictGet?_dictSet_other m _ (Ne.symm hkk)]; exact h)
        exact ⟨v2, hv2, fun hall =>
          hsame fun kv hkv => hall kv (List.mem_cons_of_mem a hkv)⟩
    · rw [if_neg hcl]
      obtain ⟨v2, hv2, hsame⟩ := ih m k v h
      exact ⟨v2, hv2, fun hall =>
        hsame fun kv hkv => hall kv (List.mem_cons_of_mem a hkv)⟩

/-- A writer-loop step either leaves the accumulator alone or emits exactly
one data line for a mapped key and marks it seen. -/
def PGStepOK (mapping : List (PStr × PStr))
    (step : List PStr × List PStr → PStr → List PStr × List PStr) : Prop :=
  ∀ acc p, step acc p = acc ∨ ∃ v, dictGet? mapping p = some v ∧
    step acc p = (acc.1 ++ [pgDataLine p v], acc.2 ++ [p])

lemma step1_ok (mapping : List (PStr × PStr)) : PGStepOK mapping
    (fun (acc : List PStr × List PStr) p =>
      match dictGet? mapping p with
      | some v =>
          if acc.2.contains p then acc
          else (acc.1 ++ [pgDataLine p v], acc.2 ++ [p])
      | none => acc) := by
  intro acc p
  dsimp only
  cases hv : dictGet? mapping p with
  | none => left; rfl
  | some v =>
    by_cases hc : acc.2.contains p = true
    · left
      exact if_pos hc
    · right
      exact ⟨v, rfl, if_neg hc⟩

lemma step2_ok (mapping : List (PStr × PStr)) : PGStepOK mapping
    (fun (acc : List PStr × List PStr) p =>
      if acc.2.contains p then acc
      else
        match dictGet? mapping p with
        | some v => (acc.1 ++ [pgDataLine p v], acc.2 ++ [p])
        | none => acc) := by
  intro acc p
  dsimp only
  by_cases hc : acc.2.contains p = true
  · left
    exact if_pos hc
  · rw [if_neg hc]
    cases hv : dictGet? mapping p with
    | none => left; rfl
    | some v =>
      right
      exact ⟨v, rfl, rfl⟩

lemma pgfold_spec {mapping : List (PStr × PStr)}
    {step : List PStr × List PStr → PStr → List PStr × List PStr}
    (hok : PGStepOK mapping step) (items : List PStr) :
    ∀ acc, ∃ t, (items.foldl step acc).1 = acc.1 ++ t ∧
      (∀ ln ∈ t, ∃ k v, dictGet? mapping k = some v ∧ ln = pgDataLine k v) ∧
      (∀ p ∈ acc.2, p ∈ (items.foldl step acc).2) := by
  induction items with
  | nil => exact fun acc => ⟨[], by simp, by simp, fun p hp => hp⟩
  | cons a rest ih =>
    intro acc
    rw [List.foldl_cons]
    rcases hok acc a with hs | ⟨v, hv, hs⟩
    · rw [hs]
      exact ih acc
    · rw [hs]
      obtain ⟨t, h1, h2, h3⟩ := ih (acc.1 ++ [pgDataLine a v], acc.2 ++ [a])
      refine ⟨pgDataLine a v :: t, ?_, ?_, ?_⟩
      · rw [h1]
        simp
      · intro ln hln
        rcases List.mem_cons.mp hln with rfl | hln
        · exact ⟨a, v, hv, rfl⟩
        · exact h2 ln hln
      · intro p hp
        exact h3 p (by simp [hp])

lemma pgfold_inv {mapping : List (PStr × PStr)}
    {step : List PStr × List PStr → PStr → List PStr × List PStr}
    (hok : PGStepOK mapping step) (items : List PStr) :
    ∀ acc, (∀ p ∈ acc.2, ∃ v, dictGet? mapping p = some v ∧
        pgDataLine p v ∈ acc.1) →
      ∀ p ∈ (items.foldl step acc).2, ∃ v, dictGet? mapping p = some v ∧
        pgDataLine p v ∈ (items.foldl step acc).1 := by
  induction items with
  | nil => exact fun acc h => h
  | cons a rest ih =>
    intro acc hInv
    rw [List.foldl_cons]
    rcases hok acc a with hs | ⟨v, hv, hs⟩
    · rw [hs]
      exact ih acc hInv
    · rw [hs]
      apply ih
      intro p hp
      rcases List.mem_append.mp hp with hp | hp
      · obtain ⟨v2, h1, h2⟩ := hInv p hp
        exact ⟨v2, h1, by simp [h2]⟩
      · rw [List.mem_singleton.mp hp]
        exact ⟨v, hv, by simp⟩

lemma loop2_seen_complete (mapping : List (PStr × PStr)) (items : List PStr) :
    ∀ acc (k : PStr), k ∈ items → (dictGet? mapping k).isSome = true →
      k ∈ (items.foldl
        (fun (acc : List PStr × List PStr) p =>
          if acc.2.contains p then acc
          else
            match dictGet? mapping p with
            | some v => (acc.1 ++ [pgDataLine p v], acc.2 ++ [p])
            | none => acc) acc).2 := by
  induction items with
  | nil => intro acc k hk; simp at hk
  | cons a rest ih =>
    intro acc k hk hsome
    rw [List.foldl_cons]
    by_cases hka : k = a
    · subst hka
      have hkin : k ∈ ((fun (acc : List PStr × List PStr) p =>
          if acc.2.contains p then acc
          else
            match dictGet? mapping p with
            | some v => (acc.1 ++ [pgDataLine p v], acc.2 ++ [p])
            | none => acc) acc k).2 := by
        by_cases hc : acc.2.contains k
        · simp only [hc, if_true]
          simpa using hc
        · cases hv : dictGet? mapping k with
          | none => rw [hv] at hsome; simp at hsome
          | some v =>
            have hc2 : k ∉ acc.2 := by simpa using hc
            simp [hv, hc2]
      obtain ⟨t, h1, h2, hmono⟩ := pgfold_spec (step2_ok mapping) rest _
      exact hmono k hkin
    · rcases List.mem_cons.mp hk with h | h
      · exact absurd h hka
      · exact ih _ k h hsome

lemma mem_dictKeys_of_lookup {m : List (PStr × PStr)} {k v : PStr}
    (h : dictGet? m k = some v) : k ∈ dictKeys m := by
  unfold dictGet? at h
  cases hf : List.find? (fun kv => kv.1 == k) m with
  | none => rw [hf] at h; simp at h
  | some kv =>
    have h1 := List.find?_some hf
    have h2 := List.mem_of_find?_eq_some hf
    have h3 : kv.1 = k := eq_of_beq h1
    unfold dictKeys
    rw [← h3]
    exact List.mem_map_of_mem Prod.fst h2

lemma write_pg_spec (ordered : List PStr) (mapping : List (PStr × PStr))
    (header others : List PStr) :
    ∃ sep tail, (sep = ([] : List PStr) ∨ sep = [['\n']]) ∧
      write_plugingroups_lines ordered mapping header others =
        header.map addNl ++ sep ++ others.map addNl ++ tail ∧
      (∀ ln ∈ tail, ∃ k v, dictGet? mapping k = some v ∧ ln = pgDataLine k v) ∧
      (∀ k v, dictGet? mapping k = some v →
        pgDataLine k v ∈ write_plugingroups_lines ordered mapping header
          others) := by
  have hsepcases : ∀ (x : Option PStr), (match x with
      | some l => if (pstrip l).isEmpty then ([] : List PStr) else [['\n']]
      | none => []) = [] ∨ (match x with
      | some l => if (pstrip l).isEmpty then ([] : List PStr) else [['\n']]
      | none => []) = [['\n']] := by
    intro x
    cases x with
    | none => left; rfl
    | some l =>
      by_cases h : (pstrip l).isEmpty = true
      · left; exact if_pos h
      · right; exact if_neg h
  unfold write_plugingroups_lines
  dsimp only
  obtain ⟨t1, h1eq, h1props, h1mono⟩ := pgfold_spec (step1_ok mapping) ordered
    ((header.map addNl ++ (match (header.map addNl).getLast? with
      | some l => if (pstrip l).isEmpty then ([] : List PStr) else [['\n']]
      | none => [])) ++ others.map addNl, [])
  obtain ⟨t2, h2eq, h2props, h2mono⟩ := pgfold_spec (step2_ok mapping)
    (List.insertionSort (fun a b => pstrLe (plower a) (plower b) = true)
      (dictKeys mapping))
    (List.foldl
      (fun (acc : List PStr × List PStr) p =>
        match dictGet? mapping p with
        | some v =>
            if acc.2.contains p then acc
            else (acc.1 ++ [pgDataLine p v], acc.2 ++ [p])
        | none => acc)
      ((header.map addNl ++ (match (header.map addNl).getLast? with
        | some l => if (pstrip l).isEmpty then ([] : List PStr) else [['\n']]
        | none => [])) ++ others.map addNl, []) ordered)
  refine ⟨_, t1 ++ t2, hsepcases ((header.map addNl).getLast?), ?_, ?_, ?_⟩
  · rw [h2eq, h1eq]
    simp [List.append_assoc]
  · intro ln hln
    rcases List.mem_append.mp hln with h | h
    · exact h1props ln h
    · exact h2props ln h
  · intro k v hkv
    have hkin : k ∈ List.insertionSort
        (fun a b => pstrLe (plower a) (plower b) = true) (dictKeys mapping) :=
      (List.perm_insertionSort _ _).mem_iff.mpr (mem_dictKeys_of_lookup hkv)
    have hseen := loop2_seen_complete mapping
      (List.insertionSort (fun a b => pstrLe (plower a) (plower b) = true)
        (dictKeys mapping)) (List.foldl
      (fun (acc : List PStr × List PStr) p =>
        match dictGet? mapping p with
        | some v =>
            if acc.2.contains p then acc
            else (acc.1 ++ [pgDataLine p v], acc.2 ++ [p])
        | none => acc)
      ((header.map addNl ++ (match (header.map addNl).getLast? with
        | some l => if (pstrip l).isEmpty then ([] : List PStr) else [['\n']]
        | none => [])) ++ others.map addNl, []) ordered) k hkin (by rw [hkv]; rfl)
    have hinv1 := pgfold_inv (step1_ok mapping) ordered
      ((header.map addNl ++ (match (header.map addNl).getLast? with
        | some l => if (pstrip l).isEmpty then ([] : List PStr) else [['\n']]
        | none => [])) ++ others.map addNl, []) (by intro p hp; simp at hp)
    have hinv2 := pgfold_inv (step2_ok mapping)
      (List.insertionSort (fun a b => pstrLe (plower a) (plower b) = true)
        (dictKeys mapping)) (List.foldl
      (fun (acc : List PStr × List PStr) p =>
        match dictGet? mapping p with
        | some v =>
            if acc.2.contains p then acc
            else (acc.1 ++ [pgDataLine p v], acc.2 ++ [p])
        | none => acc)
      ((header.map addNl ++ (match (header.map addNl).getLast? with
        | some l => if (pstrip l).isEmpty then ([] : List PStr) else [['\n']]
        | none => [])) ++ others.map addNl, []) ordered) hinv1 k hseen
    obtain ⟨v2, hv2, hmem⟩ := hinv2
    rw [hkv] at hv2
    rw [Option.some.inj hv2]
    exact hmem

/-- C9: for every existing group file and non-empty merge source: (1) the
merged mapping contains every plugin→group entry that was in the file before
the merge, with its old value whenever the plugin is absent from the merge
source (new entries only override same-key old ones); (2) when the file is
rewritten, the output is exactly the header lines, an optional separator
blank line, then the free-form "other" lines verbatim (each newline-
normalized), followed only by `plugin|group` data lines of the merged
mapping; (3) every entry of the merged mapping is emitted; (4) when the
merged mapping equals the parsed one, the file is left untouched. -/
theorem C9_groups_sync (fileLines loadorder : List PStr)
    (groupMap : List (PStr × PStr)) (hne : groupMap ≠ []) :
    (∀ k v, dictGet? (read_plugingroups_lines fileLines).mapping k = some v →
      ∃ v2, dictGet? (pgMergeTarget (read_plugingroups_lines fileLines).mapping
          groupMap) k = some v2 ∧
        ((∀ kv ∈ groupMap, pstrip kv.1 ≠ k) → v2 = v)) ∧
    (dictEq (pgMergeTarget (read_plugingroups_lines fileLines).mapping groupMap)
        (read_plugingroups_lines fileLines).mapping = false →
      (∃ sep tail, (sep = ([] : List PStr) ∨ sep = [['\n']]) ∧
        (sync_plugingroups_run fileLines loadorder groupMap).1 =
          (read_plugingroups_lines fileLines).header.map addNl ++ sep ++
          (read_plugingroups_lines fileLines).others.map addNl ++ tail ∧
        ∀ ln ∈ tail, ∃ k v, dictGet? (pgMergeTarget
          (read_plugingroups_lines fileLines).mapping groupMap) k = some v ∧
          ln = pgDataLine k v) ∧
      (∀ k v, dictGet? (pgMergeTarget
          (read_plugingroups_lines fileLines).mapping groupMap) k = some v →
        pgDataLine k v ∈ (sync_plugingroups_run fileLines loadorder
          groupMap).1)) ∧
    (dictEq (pgMergeTarget (read_plugingroups_lines fileLines).mapping groupMap)
        (read_plugingroups_lines fileLines).mapping = true →
      (sync_plugingroups_run fileLines loadorder groupMap).1 = fileLines) := by
  have hempty : groupMap.isEmpty = false := by
    cases groupMap with
    | nil => exact absurd rfl hne
    | cons a t => rfl
  refine ⟨?_, ?_, ?_⟩
  · intro k v h
    exact pgMerge_lookup_preserved groupMap
      (read_plugingroups_lines fileLines).mapping k v h
  · intro hdeq
    have hres : (sync_plugingroups_run fileLines loadorder groupMap).1 =
        write_plugingroups_lines loadorder
          (pgMergeTarget (read_plugingroups_lines fileLines).mapping groupMap)
          (read_plugingroups_lines fileLines).header
          (read_plugingroups_lines fileLines).others := by
      unfold sync_plugingroups_run
      rw [hempty]
      dsimp only
      rw [hdeq]
      rfl
    obtain ⟨sep, tail, hsep, heq, hprops, hcomplete⟩ := write_pg_spec loadorder
      (pgMergeTarget (read_plugingroups_lines fileLines).mapping groupMap)
      (read_plugingroups_lines fileLines).header
      (read_plugingroups_lines fileLines).others
    refine ⟨⟨sep, tail, hsep, ?_, hprops⟩, ?_⟩
    · rw [hres]
      exact heq
    · intro k v hkv
      rw [hres]
      exact hcomplete k v hkv
  · intro hdeq
    unfold sync_plugingroups_run
    rw [hempty]
    dsimp only
    rw [hdeq]
    rfl

/-- C9 witness: a concrete group file with header, a free-form line and an
existing mapping entry absent from the merge source. -/
theorem C9_witness :
    ((([("b.esp".data, "Patch".data)] : List (PStr × PStr)) ≠ []) ∧
      dictGet? (read_plugingroups_lines
        ["# hdr".data, "free text".data, "a.esp|Core".data]).mapping
        "a.esp".data = some "Core".data) ∧
      ∃ v2, dictGet? (pgMergeTarget (read_plugingroups_lines
          ["# hdr".data, "free text".data, "a.esp|Core".data]).mapping
          [("b.esp".data, "Patch".data)]) "a.esp".data = some v2 ∧
        ((∀ kv ∈ ([("b.esp".data, "Patch".data)] : List (PStr × PStr)),
          pstrip kv.1 ≠ "a.esp".data) → v2 = "Core".data) :=
  ⟨⟨by decide, by decide⟩,
    (C9_groups_sync ["# hdr".data, "free text".data, "a.esp|Core".data]
      ["b.esp".data, "a.esp".data] [("b.esp".data, "Patch".data)]
      (by decide)).1 "a.esp".data "Core".data (by decide)⟩

end MO2
